import Mathlib

/-!
Course planner (`ProjectTwo.cpp`).

A shallow embedding of `src/Project Two/ProjectTwo.cpp` and theorems about it.

Modelling conventions

* A `std::string` is a list of bytes (`Str`); a byte is a `Fin 256`.
* `isspace` / `isalnum` are the `<cctype>` classifiers in the default "C" locale
  (the program never calls `setlocale`).
* `std::vector<Course>` is a `List Course`; `push_back` appends at the end,
  `v[i]` on the right of an assignment is `List.getD`, on the left `List.set`.
* The loop counters of `InsertCourseInSortedOrder` (`unsigned int index`,
  `int i`) are natural numbers; they take the same values as the 32-bit
  counters as long as the vector holds fewer than 2^31 courses, which
  `InsertCourseInSortedOrderChecked`, the same function with the counters at
  their declared widths and every access checked, is used to prove.
* `std::cout` output is returned as a value.
* A thrown `runtime_error` is returned as the `std::string` it is constructed
  from, together with the state of the by-reference vector at the moment of
  the throw; `what` gives the C string that `e.what()` hands to `main`, which
  ends before the first 0 byte of that string.
-/

namespace ProjectTwo

/-! ## Strings -/

/-- One `char` of a `std::string`, as its unsigned value. -/
abbrev Byte := Fin 256

/-- Contents of a `std::string`. -/
abbrev Str := List Byte

/-- Bytes of an ASCII string literal. -/
def ascii (s : String) : Str := s.toList.map (fun c => Fin.ofNat c.toNat)

/-- Library `isspace` in the "C" locale: space, `\t`, `\n`, `\v`, `\f`, `\r`. -/
def isspace (c : Byte) : Bool := c.val == 32 || (9 ≤ c.val && c.val ≤ 13)

/-- Library `isalnum` in the "C" locale: `0-9`, `A-Z`, `a-z`; no character
above 127 is alphanumeric there. -/
def isalnum (c : Byte) : Bool :=
  (48 ≤ c.val && c.val ≤ 57) || (65 ≤ c.val && c.val ≤ 90) || (97 ≤ c.val && c.val ≤ 122)

/-- Library `operator<` on `std::string`: `compare(...) < 0`, i.e. the first
differing byte decides (as unsigned values), and a proper prefix is smaller. -/
def strLt : Str → Str → Bool
  | [], [] => false
  | [], _ :: _ => true
  | _ :: _, [] => false
  | a :: as, b :: bs =>
    if a.val < b.val then true
    else if b.val < a.val then false
    else strLt as bs

/-! ## Validators (source lines 115-156) -/

/-- The range-for loop of `IsValidCourseNumber` (lines 128-132): returns `false`
at the first character that is not alphanumeric, `true` when the string is
exhausted. -/
def allAlnumLoop : Str → Bool
  | [] => true
  | c :: rest => if !isalnum c then false else allAlnumLoop rest

/-- `IsValidCourseNumber` (lines 115-135). The erase/remove_if idiom keeps, in
order, the characters that are not `isspace`. -/
def IsValidCourseNumber (courseNumber : Str) : Bool :=
  let courseNumber := courseNumber.filter (fun c => !isspace c)
  if courseNumber.length != 7 then false
  else allAlnumLoop courseNumber

/-- `IsValidCourseName` (lines 146-156). The first `erase` drops everything
before the first non-space character; the second drops everything after the
last non-space character (found by the reverse-iterator `find_if`). -/
def IsValidCourseName (courseName : Str) : Bool :=
  let trimmedName := courseName
  let trimmedName := trimmedName.dropWhile isspace
  let trimmedName := (trimmedName.reverse.dropWhile isspace).reverse
  !trimmedName.isEmpty && trimmedName.length ≤ 55

/-! ## Course and the sorted vector (source lines 75-186) -/

/-- The data members of `class Course` (lines 80-84). -/
structure Course where
  courseNumber : Str
  courseName : Str
  prerequisites : List Str
  deriving DecidableEq, Repr

/-- The value of `Course()`: two empty strings and an empty vector. -/
instance : Inhabited Course := ⟨⟨[], [], []⟩⟩

/-- The `while` loop of `InsertCourseInSortedOrder` (lines 169-171), started
with the value of `index` and with `fuel` bounding the iterations that remain.
`InsertCourseInSortedOrder` passes `courses.size()`, which the loop cannot
exceed because every iteration needs `index < courses.size()`. -/
def scanLoop (courses : List Course) (newCourse : Course) : Nat → Nat → Nat
  | 0, index => index
  | fuel + 1, index =>
    if index < courses.length
        && strLt (courses.getD index default).courseNumber newCourse.courseNumber then
      scanLoop courses newCourse fuel (index + 1)
    else index

/-- The `for` loop of `InsertCourseInSortedOrder` (lines 179-182), started with
the value of `i`: while `i > index`, do `courses[i] = courses[i - 1]` and
decrement `i`. -/
def shiftLoop (index : Nat) : Nat → List Course → List Course
  | 0, courses => courses
  | i + 1, courses =>
    if i + 1 > index then
      shiftLoop index i (courses.set (i + 1) (courses.getD i default))
    else courses

/-- `InsertCourseInSortedOrder` (lines 164-186); the by-reference vector is
returned. -/
def InsertCourseInSortedOrder (courses : List Course) (newCourse : Course) : List Course :=
  let index := scanLoop courses newCourse courses.length 0
  let courses := courses ++ [default]
  let courses := shiftLoop index (courses.length - 1) courses
  courses.set index newCourse

/-! ## Loading (source lines 199-251) -/

/-- The loop `while (getline(stream, token, delim)) tokens.push_back(token)`
run over the unread characters of the stream, `token` being the characters
extracted so far by the current `getline` call. A `getline` call that reaches
the end of the stream without having extracted anything fails and ends the
loop; one that reaches it after extracting characters delivers them. -/
def getlineLoop (delim : Byte) : Str → Str → List Str
  | [], token => if token.isEmpty then [] else [token]
  | c :: rest, token =>
    if c = delim then token :: getlineLoop delim rest []
    else getlineLoop delim rest (token ++ [c])

/-- All strings delivered by repeated `getline` on a stream holding `s`. -/
def getlineAll (delim : Byte) (s : Str) : List Str := getlineLoop delim s []

/-- The comma, delimiter of the tokenizer (line 217). -/
def comma : Byte := 44

/-- The newline, default delimiter of `getline(file, line)` (line 211). -/
def newline : Byte := 10

/-- Argument of the `runtime_error` thrown at line 206. -/
def errFileDoesNotExist : Str := ascii "ERROR: File does not exist"
/-- String literal that starts the argument of the `runtime_error` thrown at
line 223. -/
def errInvalidCourseEntry : Str := ascii "ERROR: Invalid course entry: "
/-- String literal that starts the argument of the `runtime_error` thrown at
line 228. -/
def errInvalidCourseNumber : Str := ascii "ERROR: Invalid course number: "
/-- String literal that starts the argument of the `runtime_error` thrown at
line 233. -/
def errInvalidCourseName : Str := ascii "ERROR: Invalid course name: "
/-- String literal that starts the argument of the `runtime_error` thrown at
line 243. -/
def errInvalidPrerequisite : Str := ascii "ERROR: Invalid prerequisite course number: "

/-- The text `e.what()` gives for a `runtime_error` constructed from `message`
(line 337 prints it): a C string, so it ends before the first 0 byte of
`message`. -/
def what (message : Str) : Str := message.takeWhile (fun b => b.val != 0)

/-- The prerequisite loop (lines 241-246) over the tokens from index 2 on:
`prerequisites` is `newCourse.prerequisites` so far; the first token failing
`IsValidCourseNumber` throws, and the result is then the string the
`runtime_error` is constructed from. -/
def prerequisiteLoop (line : Str) : List Str → List Str → Except Str (List Str)
  | [], prerequisites => .ok prerequisites
  | token :: rest, prerequisites =>
    if !IsValidCourseNumber token then .error (errInvalidPrerequisite ++ line)
    else prerequisiteLoop line rest (prerequisites ++ [token])

/-- The body of the `while (getline(file, line))` loop up to the insertion
(lines 212-246): the course built from `line`, or the string that the thrown
`runtime_error` is constructed from. -/
def parseLine (line : Str) : Except Str Course :=
  let tokens := getlineAll comma line
  if tokens.length < 2 then .error (errInvalidCourseEntry ++ line)
  else if !IsValidCourseNumber (tokens.getD 0 []) then .error (errInvalidCourseNumber ++ line)
  else if !IsValidCourseName (tokens.getD 1 []) then .error (errInvalidCourseName ++ line)
  else
    match prerequisiteLoop line (tokens.drop 2) [] with
    | .error e => .error e
    | .ok prerequisites =>
      .ok { courseNumber := tokens.getD 0 [], courseName := tokens.getD 1 [],
            prerequisites := prerequisites }

/-- The `while (getline(file, line))` loop (lines 211-250) over the lines still
to be read. The result is the vector as the call leaves it and, if an
exception was thrown, the string it was constructed from. -/
def loadLoop : List Str → List Course → List Course × Option Str
  | [], courses => (courses, none)
  | line :: rest, courses =>
    match parseLine line with
    | .error e => (courses, some e)
    | .ok newCourse => loadLoop rest (InsertCourseInSortedOrder courses newCourse)

/-- `LoadCoursesFromFile` (lines 199-251). `file` is what `ifstream file(fileName)`
gives: `none` when the stream failed to open, else the characters of the file. -/
def LoadCoursesFromFile (file : Option Str) (courses : List Course) :
    List Course × Option Str :=
  match file with
  | none => (courses, some errFileDoesNotExist)
  | some contents => loadLoop (getlineAll newline contents) courses

/-! ## Printing (source lines 91-100, 262-289) -/

/-- The prerequisite loop of `Course::Output` (lines 95-97). -/
def outputPrerequisites : List Str → Str
  | [] => []
  | prereq :: rest => prereq ++ ascii " " ++ outputPrerequisites rest

/-- `Course::Output` (lines 91-100): the characters written to `cout`. -/
def Course.Output (c : Course) : Str :=
  ascii "Course Number: " ++ c.courseNumber ++ ascii ", Course Name: " ++ c.courseName
    ++ (if !c.prerequisites.isEmpty then
          ascii ", Prerequisites: " ++ outputPrerequisites c.prerequisites
        else [])
    ++ [newline]

/-- `PrintCourses` (lines 262-268): the characters written to `cout`. -/
def PrintCourses : List Course → Str
  | [] => []
  | course :: rest => course.Output ++ PrintCourses rest

/-- What one call of `PrintCourseDetails` does with `cout`: it calls `Output`
on one course, or writes the not-found line for the requested number. -/
inductive Printed where
  | output (course : Course)
  | notFound (courseNumber : Str)
  deriving DecidableEq, Repr

/-- The characters a `Printed` action writes to `cout`. -/
def Printed.text : Printed → Str
  | .output course => course.Output
  | .notFound courseNumber => ascii "Course not found: " ++ courseNumber ++ [newline]

/-- `PrintCourseDetails` (lines 281-289): the range-for loop returns at the
first course whose number equals the argument. -/
def PrintCourseDetails (courseNumber : Str) : List Course → Printed
  | [] => .notFound courseNumber
  | course :: rest =>
    if course.courseNumber = courseNumber then .output course
    else PrintCourseDetails courseNumber rest

/-! ## Properties stated about the program, and sample data -/

/-- The string `IsValidCourseName` measures: `courseName` without its leading
and trailing `isspace` characters. -/
def trimmed (courseName : Str) : Str :=
  ((courseName.dropWhile isspace).reverse.dropWhile isspace).reverse

/-- The vector is in ascending (non-strict) order of course number: no course
is followed, at any distance, by one whose number is smaller. -/
def Ascending (courses : List Course) : Prop :=
  courses.Pairwise (fun a b => strLt b.courseNumber a.courseNumber = false)

instance (courses : List Course) : Decidable (Ascending courses) := by
  unfold Ascending; infer_instance

/-- The course is as the data model wants it: number and name pass their
validators, and so does every prerequisite. -/
def ValidCourse (c : Course) : Prop :=
  IsValidCourseNumber c.courseNumber = true ∧ IsValidCourseName c.courseName = true ∧
    ∀ p ∈ c.prerequisites, IsValidCourseNumber p = true

/-- The vectors `main` can hold: it starts with an empty vector and changes it
only through `LoadCoursesFromFile` (case 1 of the menu), whose exception it
catches, keeping the vector as the failed call left it. -/
inductive Reachable : List Course → Prop where
  | empty : Reachable []
  | load (file : Option Str) (courses : List Course) :
      Reachable courses → Reachable (LoadCoursesFromFile file courses).1

/-- The courses built from the lines that `parseLine` accepts, in line order. -/
def parsedCourses (lines : List Str) : List Course :=
  lines.filterMap (fun line => (parseLine line).toOption)

/-- Token 0 of a line: the string the loader validates and stores as the
course number (`tokens[0]`, lines 227 and 237). -/
def courseNumberOf (line : Str) : Str := (getlineAll comma line).getD 0 []

/-- Sample course: `CSCI101,Intro to Programming`. -/
def courseIntro : Course := ⟨ascii "CSCI101", ascii "Intro to Programming", []⟩

/-- Sample course: `CSCI201,Data Structures,CSCI101`. -/
def courseData : Course := ⟨ascii "CSCI201", ascii "Data Structures", [ascii "CSCI101"]⟩

/-- Sample course: `CSCI301,Algorithms,CSCI201`. -/
def courseAlgo : Course := ⟨ascii "CSCI301", ascii "Algorithms", [ascii "CSCI201"]⟩

/-- Sample course with the number of `courseIntro` and another name. -/
def courseBasics : Course := ⟨ascii "CSCI101", ascii "Basics", []⟩

/-- Sample file of two lines, the later course first. -/
def fileTwoLines : Str :=
  ascii "CSCI201,Data Structures,CSCI101\nCSCI101,Intro to Programming\n"

/-- The lines of `fileTwoLines` in the other order, the last one unterminated. -/
def fileTwoLinesSwapped : Str :=
  ascii "CSCI101,Intro to Programming\nCSCI201,Data Structures,CSCI101"

/-- Sample file whose second line has a course number of 6 characters. -/
def fileBadSecondLine : Str :=
  ascii "CSCI201,Data Structures,CSCI101\nCSC101,Intro to Programming\nCSCI301,Algorithms\n"

/-- The lines of a file from which `LoadCoursesFromFile` inserts a course: the
lines before the first one that `parseLine` rejects (none when the file did
not open). -/
def insertedLines (file : Option Str) : List Str :=
  match file with
  | none => []
  | some contents => (getlineAll newline contents).takeWhile (fun l => (parseLine l).toBool)

/-- The vector of `main` after case 1 of the menu has been run on each of the
files in turn, starting from the empty vector. -/
def loadAll (files : List (Option Str)) : List Course :=
  files.foldl (fun courses file => (LoadCoursesFromFile file courses).1) []

/-- Index of the first course whose number is not less than the number of
`newCourse`; the length of the vector when there is none. -/
def firstNotLessIndex (courses : List Course) (newCourse : Course) : Nat :=
  courses.findIdx (fun x => !strLt x.courseNumber newCourse.courseNumber)

/-- The insertion as the specification words it: the new course is placed
immediately before the first course whose number is not less than its own,
`cs[0..i) ++ [c] ++ cs[i..)`. -/
def insertBeforeFirstNotLess (courses : List Course) (newCourse : Course) : List Course :=
  courses.take (firstNotLessIndex courses newCourse) ++ [newCourse]
    ++ courses.drop (firstNotLessIndex courses newCourse)

/-- Sample file of one line whose course number carries a trailing space. -/
def fileTrailingSpace : Str := ascii "CSCI101 ,Intro to Programming\n"

/-- Sample line with a 0 byte inside token 0. -/
def lineWithNul : Str := ascii "CSC" ++ [0] ++ ascii "101,Intro to Programming"

/-- Sample file whose only line is `lineWithNul`. -/
def fileWithNul : Str := lineWithNul ++ [newline]

/-! ## `InsertCourseInSortedOrder` with 32-bit counters and checked accesses -/

/-- Conversion of a `size_t` value to `int`, as in `int i = courses.size() - 1`
(line 179): the low 32 bits read as a two's complement number. -/
def sizeToInt (n : Nat) : Int :=
  if n % 4294967296 < 2147483648 then ((n % 4294967296 : Nat) : Int)
  else ((n % 4294967296 : Nat) : Int) - 4294967296

/-- Conversion of an `int` to `unsigned int`, which the comparison `i > index`
(line 179) applies to `i`. -/
def intToUnsigned (i : Int) : Nat := (i % 4294967296).toNat

/-- Conversion of an `int` to `size_t`, which `courses[i]` applies to `i`. -/
def intToSize (i : Int) : Nat := (i % 18446744073709551616).toNat

/-- The `while` loop of lines 169-171 with `index` an `unsigned int`. `seen`
collects every value `index` has when the loop condition is tested. The result
is `none` when `fuel` tests did not end the loop or an access `courses[index]`
fell outside the vector. -/
def scanLoopChecked (courses : List Course) (newCourse : Course) :
    Nat → Nat → List Nat → Option (Nat × List Nat)
  | 0, _, _ => none
  | fuel + 1, index, seen =>
    if index < courses.length then
      match courses[index]? with
      | none => none
      | some course =>
        if strLt course.courseNumber newCourse.courseNumber then
          scanLoopChecked courses newCourse fuel ((index + 1) % 4294967296) (seen ++ [index])
        else some (index, seen ++ [index])
    else some (index, seen ++ [index])

/-- The `for` loop of lines 179-182 with `i` an `int` and `index` an
`unsigned int`. `seen` collects every value `i` has when the body runs. The
result is `none` when `fuel` tests did not end the loop, when `courses[i]` or
`courses[i - 1]` fell outside the vector, or when `i - 1` overflowed. -/
def shiftLoopChecked (index : Nat) :
    Nat → Int → List Course → List Int → Option (List Course × List Int)
  | 0, _, _, _ => none
  | fuel + 1, i, courses, seen =>
    if intToUnsigned i > index then
      if i ≤ -2147483648 then none
      else
        match courses[intToSize (i - 1)]? with
        | none => none
        | some course =>
          if intToSize i < courses.length then
            shiftLoopChecked index fuel (i - 1) (courses.set (intToSize i) course)
              (seen ++ [i])
          else none
    else some (courses, seen)

/-- What a checked run of `InsertCourseInSortedOrder` leaves: the vector, the
values of `index` at the tests of the scan loop, and the values of `i` at the
executions of the shift. -/
structure InsertRun where
  courses : List Course
  scanIndices : List Nat
  shiftCounters : List Int
  deriving DecidableEq, Repr

/-- `InsertCourseInSortedOrder` (lines 164-186) with its counters at their
declared widths and every element access checked; `fuel` bounds the number of
tests each loop may make. -/
def InsertCourseInSortedOrderChecked (fuel : Nat) (courses : List Course)
    (newCourse : Course) : Option InsertRun :=
  match scanLoopChecked courses newCourse fuel 0 [] with
  | none => none
  | some (index, scanIndices) =>
    let courses := courses ++ [default]
    match shiftLoopChecked index fuel (sizeToInt (courses.length - 1)) courses [] with
    | none => none
    | some (courses, shiftCounters) =>
      if index < courses.length then
        some ⟨courses.set index newCourse, scanIndices, shiftCounters⟩
      else none

/-! ## Validators: proofs -/

theorem allAlnumLoop_iff (s : Str) : allAlnumLoop s = true ↔ ∀ c ∈ s, isalnum c = true := by
  induction s with
  | nil => simp [allAlnumLoop]
  | cons c rest ih =>
    cases h : isalnum c <;> simp [allAlnumLoop, h, ih]

theorem isalnum_iff (c : Byte) :
    isalnum c = true ↔
      (48 ≤ c.val ∧ c.val ≤ 57) ∨ (65 ≤ c.val ∧ c.val ≤ 90) ∨ (97 ≤ c.val ∧ c.val ≤ 122) := by
  simp [isalnum, or_assoc]

theorem isspace_iff (c : Byte) :
    isspace c = true ↔
      c.val = 32 ∨ c.val = 9 ∨ c.val = 10 ∨ c.val = 11 ∨ c.val = 12 ∨ c.val = 13 := by
  simp only [isspace, Bool.or_eq_true, Bool.and_eq_true, beq_iff_eq, decide_eq_true_eq]
  omega

theorem dropWhile_append_of_all (p : Byte → Bool) (lead rest : Str)
    (hlead : ∀ c ∈ lead, p c = true) (hrest : ∀ c, rest.head? = some c → p c = false) :
    (lead ++ rest).dropWhile p = rest := by
  induction lead with
  | nil =>
    cases rest with
    | nil => rfl
    | cons c r => simp [List.dropWhile, hrest c rfl]
  | cons a l ih =>
    have ha : p a = true := hlead a (by simp)
    simp only [List.cons_append, List.dropWhile, ha]
    exact ih (fun c hc => hlead c (by simp [hc]))

theorem head_dropWhile_false (p : Byte → Bool) (s : Str) (c : Byte)
    (h : (s.dropWhile p).head? = some c) : p c = false := by
  induction s with
  | nil => simp at h
  | cons a l ih =>
    cases ha : p a with
    | true => simp only [List.dropWhile, ha] at h; exact ih h
    | false =>
      simp only [List.dropWhile, ha, List.head?_cons, Option.some.injEq] at h
      exact h ▸ ha

theorem all_takeWhile (p : Byte → Bool) (s : Str) : ∀ c ∈ s.takeWhile p, p c = true := by
  intro c hc
  exact List.mem_takeWhile_imp hc

theorem IsValidCourseName_eq (s : Str) :
    IsValidCourseName s = (!(trimmed s).isEmpty && decide ((trimmed s).length ≤ 55)) := rfl

theorem trimmed_decomp (s : Str) :
    ∃ lead trail, s = lead ++ trimmed s ++ trail ∧ (∀ c ∈ lead, isspace c = true) ∧
      (∀ c ∈ trail, isspace c = true) ∧
      (∀ c, (trimmed s).head? = some c → isspace c = false) ∧
      (∀ c, (trimmed s).getLast? = some c → isspace c = false) := by
  refine ⟨s.takeWhile isspace,
    (((s.dropWhile isspace).reverse).takeWhile isspace).reverse, ?_, ?_, ?_, ?_, ?_⟩
  · have h1 : trimmed s ++ (((s.dropWhile isspace).reverse).takeWhile isspace).reverse
        = s.dropWhile isspace := by
      unfold trimmed
      rw [← List.reverse_append, List.takeWhile_append_dropWhile, List.reverse_reverse]
    rw [List.append_assoc, h1, List.takeWhile_append_dropWhile]
  · exact all_takeWhile _ _
  · intro c hc
    exact all_takeWhile isspace _ c (List.mem_reverse.mp hc)
  · intro c hc
    have h1 : trimmed s ++ (((s.dropWhile isspace).reverse).takeWhile isspace).reverse
        = s.dropWhile isspace := by
      unfold trimmed
      rw [← List.reverse_append, List.takeWhile_append_dropWhile, List.reverse_reverse]
    apply head_dropWhile_false isspace s c
    rw [← h1]
    cases ht : trimmed s with
    | nil => rw [ht] at hc; simp at hc
    | cons a l => rw [ht] at hc; simpa using hc
  · intro c hc
    apply head_dropWhile_false isspace (s.dropWhile isspace).reverse c
    unfold trimmed at hc
    rw [List.getLast?_reverse] at hc
    exact hc

theorem trimmed_unique (s lead t trail : Str) (hs : s = lead ++ t ++ trail)
    (hlead : ∀ c ∈ lead, isspace c = true) (htrail : ∀ c ∈ trail, isspace c = true)
    (hhead : ∀ c, t.head? = some c → isspace c = false)
    (hlast : ∀ c, t.getLast? = some c → isspace c = false) (hne : t ≠ []) :
    trimmed s = t := by
  have h1 : s.dropWhile isspace = t ++ trail := by
    rw [hs, List.append_assoc]
    apply dropWhile_append_of_all _ _ _ hlead
    intro c hc
    cases t with
    | nil => exact absurd rfl hne
    | cons a l => exact hhead c (by simpa using hc)
  have h2 : (t ++ trail).reverse.dropWhile isspace = t.reverse := by
    rw [List.reverse_append]
    apply dropWhile_append_of_all
    · intro c hc
      exact htrail c (List.mem_reverse.mp hc)
    · intro c hc
      rw [List.head?_reverse] at hc
      exact hlast c hc
  unfold trimmed
  rw [h1, h2, List.reverse_reverse]

/-- C1. `IsValidCourseNumber s` holds exactly when `s` with every whitespace
character deleted (wherever it stands) has 7 characters, each an ASCII letter
or digit. -/
theorem IsValidCourseNumber_iff (s : Str) :
    IsValidCourseNumber s = true ↔
      (s.filter (fun c => !isspace c)).length = 7 ∧
      ∀ c ∈ s.filter (fun c => !isspace c),
        (48 ≤ c.val ∧ c.val ≤ 57) ∨ (65 ≤ c.val ∧ c.val ≤ 90) ∨ (97 ≤ c.val ∧ c.val ≤ 122) := by
  unfold IsValidCourseNumber
  by_cases hlen : (s.filter (fun c => !isspace c)).length = 7
  · simp only [hlen, bne_self_eq_false, Bool.false_eq_true, if_false, true_and,
      allAlnumLoop_iff]
    exact forall_congr' (fun c => imp_congr_right (fun _ => isalnum_iff c))
  · simp [hlen]

/-- C2. `IsValidCourseName s` holds exactly when the string `t` left after
removing the leading and the trailing whitespace of `s` (and nothing else) has
between 1 and 55 characters. -/
theorem IsValidCourseName_iff (s : Str) :
    IsValidCourseName s = true ↔
      ∃ lead t trail, s = lead ++ t ++ trail ∧
        (∀ c ∈ lead, isspace c = true) ∧ (∀ c ∈ trail, isspace c = true) ∧
        (∀ c, t.head? = some c → isspace c = false) ∧
        (∀ c, t.getLast? = some c → isspace c = false) ∧
        1 ≤ t.length ∧ t.length ≤ 55 := by
  rw [IsValidCourseName_eq]
  constructor
  · intro h
    obtain ⟨lead, trail, hs, h1, h2, h3, h4⟩ := trimmed_decomp s
    refine ⟨lead, trimmed s, trail, hs, h1, h2, h3, h4, ?_, ?_⟩
    · cases ht : trimmed s with
      | nil => simp [ht] at h
      | cons a l => simp
    · exact of_decide_eq_true (Bool.and_eq_true _ _ ▸ h).2
  · rintro ⟨lead, t, trail, hs, h1, h2, h3, h4, h5, h6⟩
    have hne : t ≠ [] := by
      intro h0
      rw [h0] at h5
      simp at h5
    rw [trimmed_unique s lead t trail hs h1 h2 h3 h4 hne]
    cases t with
    | nil => exact absurd rfl hne
    | cons a l => simpa using h6

/-- C3, evaluated at the string `"CSCI101 "`: `IsValidCourseNumber` accepts it
although it contains a space, is 8 characters long and has a character that is
not alphanumeric. -/
theorem IsValidCourseNumber_accepts_space :
    IsValidCourseNumber (ascii "CSCI101 ") = true ∧
      (32 : Byte) ∈ ascii "CSCI101 " ∧ (ascii "CSCI101 ").length = 8 ∧
      ∃ c ∈ ascii "CSCI101 ", isalnum c = false := by
  decide

/-! ## The order on course numbers -/

theorem strLt_irrefl (a : Str) : strLt a a = false := by
  induction a with
  | nil => rfl
  | cons x xs ih => simp [strLt, ih]

theorem strLt_asymm : ∀ (a b : Str), strLt a b = true → strLt b a = false
  | [], [], h => by simp [strLt] at h
  | [], _ :: _, _ => by simp [strLt]
  | _ :: _, [], h => by simp [strLt] at h
  | x :: xs, y :: ys, h => by
    rcases Nat.lt_trichotomy x.val y.val with hxy | hxy | hxy
    · have h1 : ¬ y.val < x.val := by omega
      simp [strLt, hxy, h1]
    · have h1 : ¬ x.val < y.val := by omega
      have h2 : ¬ y.val < x.val := by omega
      simp only [strLt, h1, h2, if_false] at h ⊢
      exact strLt_asymm xs ys h
    · have h1 : ¬ x.val < y.val := by omega
      simp [strLt, hxy, h1] at h

theorem strLt_trans : ∀ (a b c : Str), strLt a b = true → strLt b c = true → strLt a c = true
  | [], [], _, h, _ => by simp [strLt] at h
  | [], _ :: _, [], _, h => by simp [strLt] at h
  | [], _ :: _, _ :: _, _, _ => by simp [strLt]
  | _ :: _, [], _, h, _ => by simp [strLt] at h
  | _ :: _, _ :: _, [], _, h => by simp [strLt] at h
  | x :: xs, y :: ys, z :: zs, hab, hbc => by
    rcases Nat.lt_trichotomy x.val y.val with hxy | hxy | hxy
    · rcases Nat.lt_trichotomy y.val z.val with hyz | hyz | hyz
      · have h1 : x.val < z.val := by omega
        simp [strLt, h1]
      · have h1 : x.val < z.val := by omega
        simp [strLt, h1]
      · have h1 : ¬ y.val < z.val := by omega
        simp [strLt, hyz, h1] at hbc
    · have h1 : ¬ x.val < y.val := by omega
      have h2 : ¬ y.val < x.val := by omega
      simp only [strLt, h1, h2, if_false] at hab
      rcases Nat.lt_trichotomy y.val z.val with hyz | hyz | hyz
      · have h3 : x.val < z.val := by omega
        simp [strLt, h3]
      · have h3 : ¬ y.val < z.val := by omega
        have h4 : ¬ z.val < y.val := by omega
        simp only [strLt, h3, h4, if_false] at hbc
        have h5 : ¬ x.val < z.val := by omega
        have h6 : ¬ z.val < x.val := by omega
        simp only [strLt, h5, h6, if_false]
        exact strLt_trans xs ys zs hab hbc
      · have h3 : ¬ y.val < z.val := by omega
        simp [strLt, hyz, h3] at hbc
    · have h1 : ¬ x.val < y.val := by omega
      simp [strLt, hxy, h1] at hab

theorem strLt_connex : ∀ (a b : Str), strLt a b = false → strLt b a = false → a = b
  | [], [], _, _ => rfl
  | [], _ :: _, h, _ => by simp [strLt] at h
  | _ :: _, [], _, h => by simp [strLt] at h
  | x :: xs, y :: ys, hab, hba => by
    rcases Nat.lt_trichotomy x.val y.val with hxy | hxy | hxy
    · simp [strLt, hxy] at hab
    · have h1 : ¬ x.val < y.val := by omega
      have h2 : ¬ y.val < x.val := by omega
      simp only [strLt, h1, h2, if_false] at hab hba
      rw [Fin.ext hxy, strLt_connex xs ys hab hba]
    · simp [strLt, hxy] at hba

/-- Transitivity of "not greater": from `a ≤ b` and `b ≤ c` follows `a ≤ c`. -/
theorem strLe_trans (a b c : Str) (hab : strLt b a = false) (hbc : strLt c b = false) :
    strLt c a = false := by
  cases hca : strLt c a with
  | false => rfl
  | true =>
    cases hba : strLt a b with
    | true => rw [strLt_trans c a b hca hba] at hbc; exact hbc
    | false =>
      have : b = a := strLt_connex b a hab hba
      rw [this, hca] at hbc
      exact hbc

/-! ## The sorted insertion: what the loops compute -/

theorem scanLoop_eq (courses : List Course) (newCourse : Course) :
    ∀ (fuel index : Nat), index ≤ courses.length → courses.length ≤ index + fuel →
      scanLoop courses newCourse fuel index
        = index + ((courses.drop index).takeWhile
            (fun x => strLt x.courseNumber newCourse.courseNumber)).length := by
  intro fuel
  induction fuel with
  | zero =>
    intro index h1 h2
    have : index = courses.length := by omega
    subst this
    simp [scanLoop]
  | succ fuel ih =>
    intro index h1 h2
    by_cases hlt : index < courses.length
    · rw [List.drop_eq_getElem_cons hlt]
      have hget : courses.getD index default = courses[index] := List.getD_eq_getElem _ _ hlt
      cases hp : strLt courses[index].courseNumber newCourse.courseNumber with
      | true =>
        simp only [scanLoop, hlt, hget, hp, decide_True, Bool.and_self, if_true,
          List.takeWhile_cons, List.length_cons]
        rw [ih (index + 1) hlt (by omega)]
        omega
      | false =>
        simp only [scanLoop, hget, hp, Bool.and_false, Bool.false_eq_true, if_false,
          List.takeWhile_cons, List.length_nil, Nat.add_zero]
    · have : index = courses.length := by omega
      subst this
      simp [scanLoop]

/-- The scan loop stops because its condition is false, not because the bound
on its iterations is used up. -/
theorem scanLoop_exit (courses : List Course) (newCourse : Course) :
    (decide (scanLoop courses newCourse courses.length 0 < courses.length)
      && strLt (courses.getD (scanLoop courses newCourse courses.length 0) default).courseNumber
          newCourse.courseNumber) = false := by
  have hidx := scanLoop_eq courses newCourse courses.length 0 (Nat.zero_le _) (by omega)
  simp only [List.drop_zero, Nat.zero_add] at hidx
  rw [hidx]
  have hsplit := List.takeWhile_append_dropWhile
    (fun x => strLt x.courseNumber newCourse.courseNumber) courses
  cases hd : courses.dropWhile (fun x => strLt x.courseNumber newCourse.courseNumber) with
  | nil =>
    rw [hd, List.append_nil] at hsplit
    rw [hsplit]
    simp
  | cons d rest =>
    have hdc : strLt d.courseNumber newCourse.courseNumber = false := by
      have := List.head_dropWhile_not
        (fun x => strLt x.courseNumber newCourse.courseNumber) courses (by rw [hd]; simp)
      simpa [hd] using this
    have hget : courses.getD (courses.takeWhile
        (fun x => strLt x.courseNumber newCourse.courseNumber)).length default = d := by
      have key : ∀ (tw dw : List Course), dw = d :: rest →
          (tw ++ dw).getD tw.length default = d := by
        intro tw dw h
        rw [List.getD_append_right _ _ _ _ (Nat.le_refl _), Nat.sub_self, h]
        rfl
      have h := key (courses.takeWhile
        (fun x => strLt x.courseNumber newCourse.courseNumber)) _ hd
      rw [hsplit] at h
      exact h
    rw [hget, hdc, Bool.and_false]

/-- A larger bound on the iterations of the scan loop changes nothing. -/
theorem scanLoop_fuel (courses : List Course) (newCourse : Course) (fuel : Nat)
    (h : courses.length ≤ fuel) :
    scanLoop courses newCourse fuel 0 = scanLoop courses newCourse courses.length 0 := by
  rw [scanLoop_eq courses newCourse fuel 0 (Nat.zero_le _) (by omega),
    scanLoop_eq courses newCourse courses.length 0 (Nat.zero_le _) (by omega)]

theorem shiftLoop_set (index : Nat) (cs : List Course) (c : Course) :
    ∀ (i : Nat) (x : Course), index ≤ i → i ≤ cs.length →
      (shiftLoop index i (cs.take i ++ x :: cs.drop i)).set index c
        = cs.take index ++ c :: cs.drop index := by
  intro i
  induction i with
  | zero =>
    intro x h1 _
    have : index = 0 := by omega
    subst this
    simp [shiftLoop]
  | succ i ih =>
    intro x h1 h2
    have hi : i < cs.length := by omega
    have hlen : (cs.take (i + 1)).length = i + 1 := by simp; omega
    by_cases hgt : i + 1 > index
    · have hget : (cs.take (i + 1) ++ x :: cs.drop (i + 1)).getD i default = cs[i] := by
        rw [List.getD_append _ _ _ _ (by omega), List.getD_eq_getElem _ _ (by omega)]
        simp
      have hset : (cs.take (i + 1) ++ x :: cs.drop (i + 1)).set (i + 1) cs[i]
          = cs.take i ++ cs[i] :: cs.drop i := by
        have ht : cs.take (i + 1) = cs.take i ++ [cs[i]] := by
          rw [List.take_succ, List.getElem?_eq_getElem hi]
          rfl
        rw [List.set_append_right _ _ (by omega), hlen, Nat.sub_self, List.set_cons_zero, ht,
          List.drop_eq_getElem_cons hi]
        simp only [List.append_assoc, List.singleton_append]
      simp only [shiftLoop, hgt, if_true, hget, hset]
      exact ih cs[i] (by omega) (by omega)
    · have : index = i + 1 := by omega
      subst this
      simp only [shiftLoop, hgt, if_false]
      rw [List.set_append_right _ _ (by omega), hlen, Nat.sub_self, List.set_cons_zero]

/-- The two loops and the final assignment put `newCourse` right after the
leading run of courses whose number is smaller than its own. -/
theorem InsertCourseInSortedOrder_eq (courses : List Course) (newCourse : Course) :
    InsertCourseInSortedOrder courses newCourse
      = courses.takeWhile (fun x => strLt x.courseNumber newCourse.courseNumber)
        ++ newCourse :: courses.dropWhile
            (fun x => strLt x.courseNumber newCourse.courseNumber) := by
  have hidx := scanLoop_eq courses newCourse courses.length 0 (Nat.zero_le _) (by omega)
  simp only [List.drop_zero, Nat.zero_add] at hidx
  have hle : (courses.takeWhile
      (fun x => strLt x.courseNumber newCourse.courseNumber)).length ≤ courses.length :=
    (List.takeWhile_sublist _).length_le
  have h := shiftLoop_set _ courses newCourse courses.length default hle (Nat.le_refl _)
  simp only [List.take_length, List.drop_length] at h
  unfold InsertCourseInSortedOrder
  simp only [hidx, List.length_append, List.length_singleton, Nat.add_sub_cancel]
  rw [h]
  have hsplit := List.takeWhile_append_dropWhile
    (fun x => strLt x.courseNumber newCourse.courseNumber) courses
  have htake := List.take_left
    (courses.takeWhile (fun x => strLt x.courseNumber newCourse.courseNumber))
    (courses.dropWhile (fun x => strLt x.courseNumber newCourse.courseNumber))
  have hdrop := List.drop_left
    (courses.takeWhile (fun x => strLt x.courseNumber newCourse.courseNumber))
    (courses.dropWhile (fun x => strLt x.courseNumber newCourse.courseNumber))
  rw [hsplit] at htake hdrop
  rw [htake, hdrop]

theorem InsertCourseInSortedOrder_perm (courses : List Course) (newCourse : Course) :
    (InsertCourseInSortedOrder courses newCourse).Perm (newCourse :: courses) := by
  rw [InsertCourseInSortedOrder_eq]
  refine List.perm_middle.trans (List.Perm.cons _ ?_)
  rw [List.takeWhile_append_dropWhile]

theorem InsertCourseInSortedOrder_length (courses : List Course) (newCourse : Course) :
    (InsertCourseInSortedOrder courses newCourse).length = courses.length + 1 := by
  simpa using (InsertCourseInSortedOrder_perm courses newCourse).length_eq

theorem mem_InsertCourseInSortedOrder (courses : List Course) (newCourse x : Course) :
    x ∈ InsertCourseInSortedOrder courses newCourse ↔ x = newCourse ∨ x ∈ courses := by
  rw [(InsertCourseInSortedOrder_perm courses newCourse).mem_iff, List.mem_cons]

theorem InsertCourseInSortedOrder_ascending (courses : List Course) (newCourse : Course)
    (h : Ascending courses) : Ascending (InsertCourseInSortedOrder courses newCourse) := by
  rw [InsertCourseInSortedOrder_eq]
  unfold Ascending at h ⊢
  rw [← List.takeWhile_append_dropWhile
    (fun x => strLt x.courseNumber newCourse.courseNumber) courses, List.pairwise_append] at h
  obtain ⟨h1, h2, h3⟩ := h
  rw [List.pairwise_append]
  refine ⟨h1, ?_, ?_⟩
  · rw [List.pairwise_cons]
    refine ⟨?_, h2⟩
    intro b hb
    cases hd : courses.dropWhile (fun x => strLt x.courseNumber newCourse.courseNumber) with
    | nil => rw [hd] at hb; simp at hb
    | cons d rest =>
      have hdc : strLt d.courseNumber newCourse.courseNumber = false := by
        have := List.head_dropWhile_not
          (fun x => strLt x.courseNumber newCourse.courseNumber) courses (by rw [hd]; simp)
        simpa [hd] using this
      rw [hd] at hb h2
      rcases List.mem_cons.mp hb with hbd | hbr
      · rw [hbd]; exact hdc
      · exact strLe_trans _ _ _ hdc ((List.pairwise_cons.mp h2).1 b hbr)
  · intro a ha b hb
    rcases List.mem_cons.mp hb with hbc | hbd
    · rw [hbc]
      exact strLt_asymm _ _ (by simpa using List.mem_takeWhile_imp ha)
    · exact h3 a ha b hbd

/-- C4. Inserting a course into a vector that is in ascending order of course
number gives a vector that is again in ascending order, has one more element,
and is a permutation of the old courses together with the new one. -/
theorem InsertCourseInSortedOrder_sorted_perm (courses : List Course) (newCourse : Course)
    (h : Ascending courses) :
    Ascending (InsertCourseInSortedOrder courses newCourse) ∧
      (InsertCourseInSortedOrder courses newCourse).length = courses.length + 1 ∧
      (InsertCourseInSortedOrder courses newCourse).Perm (courses ++ [newCourse]) :=
  ⟨InsertCourseInSortedOrder_ascending courses newCourse h,
    InsertCourseInSortedOrder_length courses newCourse,
    (InsertCourseInSortedOrder_perm courses newCourse).trans
      (List.perm_append_singleton newCourse courses).symm⟩

theorem InsertCourseInSortedOrder_sorted_perm_witness :
    Ascending [courseIntro, courseAlgo] ∧
      InsertCourseInSortedOrder [courseIntro, courseAlgo] courseData
        = [courseIntro, courseData, courseAlgo] ∧
      Ascending (InsertCourseInSortedOrder [courseIntro, courseAlgo] courseData) :=
  ⟨by decide, by decide,
    (InsertCourseInSortedOrder_sorted_perm [courseIntro, courseAlgo] courseData
      (by decide)).1⟩

/-! ## Lookup -/

theorem PrintCourseDetails_append_of_no_match (q : Str) (l₁ l₂ : List Course)
    (h : ∀ x ∈ l₁, x.courseNumber ≠ q) :
    PrintCourseDetails q (l₁ ++ l₂) = PrintCourseDetails q l₂ := by
  induction l₁ with
  | nil => rfl
  | cons a l ih =>
    have ha : a.courseNumber ≠ q := h a (by simp)
    simp only [List.cons_append, PrintCourseDetails, ha, if_false]
    exact ih (fun x hx => h x (by simp [hx]))

theorem PrintCourseDetails_skip (q : Str) (l₁ l₂ : List Course) (c : Course)
    (hc : c.courseNumber ≠ q) :
    PrintCourseDetails q (l₁ ++ c :: l₂) = PrintCourseDetails q (l₁ ++ l₂) := by
  induction l₁ with
  | nil => simp [PrintCourseDetails, hc]
  | cons a l ih =>
    by_cases ha : a.courseNumber = q
    · simp [PrintCourseDetails, ha]
    · simp only [List.cons_append, PrintCourseDetails, ha, if_false]
      exact ih

/-- A lookup right after an insertion finds the new course when the numbers
agree, and is unaffected by the insertion otherwise. -/
theorem PrintCourseDetails_insert (q : Str) (courses : List Course) (newCourse : Course) :
    PrintCourseDetails q (InsertCourseInSortedOrder courses newCourse)
      = if newCourse.courseNumber = q then Printed.output newCourse
        else PrintCourseDetails q courses := by
  rw [InsertCourseInSortedOrder_eq]
  by_cases hq : newCourse.courseNumber = q
  · rw [if_pos hq, PrintCourseDetails_append_of_no_match]
    · simp [PrintCourseDetails, hq]
    · intro x hx hxq
      have hlt : strLt x.courseNumber newCourse.courseNumber = true := by
        simpa using List.mem_takeWhile_imp hx
      rw [hxq, hq, strLt_irrefl] at hlt
      exact Bool.false_ne_true hlt
  · rw [if_neg hq, PrintCourseDetails_skip _ _ _ _ hq, List.takeWhile_append_dropWhile]

theorem PrintCourseDetails_foldl_of_no_match (q : Str) (later : List Course) :
    ∀ (courses : List Course), (∀ x ∈ later, x.courseNumber ≠ q) →
      PrintCourseDetails q (later.foldl InsertCourseInSortedOrder courses)
        = PrintCourseDetails q courses := by
  induction later with
  | nil => intro courses _; rfl
  | cons a l ih =>
    intro courses h
    rw [List.foldl_cons, ih _ (fun x hx => h x (by simp [hx])), PrintCourseDetails_insert,
      if_neg (h a (by simp))]

theorem PrintCourseDetails_notFound_iff (q : Str) (courses : List Course) :
    PrintCourseDetails q courses = Printed.notFound q ↔
      ∀ x ∈ courses, x.courseNumber ≠ q := by
  induction courses with
  | nil => simp [PrintCourseDetails]
  | cons a l ih =>
    by_cases ha : a.courseNumber = q
    · simp [PrintCourseDetails, ha]
    · simp [PrintCourseDetails, ha, ih]

theorem PrintCourseDetails_output_iff (q : Str) (courses : List Course) (c : Course) :
    PrintCourseDetails q courses = Printed.output c ↔
      ∃ before after, courses = before ++ c :: after ∧
        (∀ x ∈ before, x.courseNumber ≠ q) ∧ c.courseNumber = q := by
  induction courses with
  | nil => simp [PrintCourseDetails]
  | cons a l ih =>
    by_cases ha : a.courseNumber = q
    · simp only [PrintCourseDetails, ha, if_true, Printed.output.injEq]
      constructor
      · intro hac
        exact ⟨[], l, by rw [hac]; rfl, by simp, hac ▸ ha⟩
      · rintro ⟨before, after, hsplit, hno, _⟩
        cases before with
        | nil => simpa using (List.cons.inj hsplit).1
        | cons b rest =>
          have hb : a = b := (List.cons.inj hsplit).1
          exact absurd (hb ▸ ha) (hno b (by simp))
    · simp only [PrintCourseDetails, ha, if_false, ih]
      constructor
      · rintro ⟨before, after, hsplit, hno, hc⟩
        refine ⟨a :: before, after, by rw [hsplit]; rfl, ?_, hc⟩
        intro x hx
        rcases List.mem_cons.mp hx with hxa | hxb
        · rw [hxa]; exact ha
        · exact hno x hxb
      · rintro ⟨before, after, hsplit, hno, hc⟩
        cases before with
        | nil =>
          have hac : a = c := (List.cons.inj hsplit).1
          exact absurd (hac ▸ hc) ha
        | cons b rest =>
          exact ⟨rest, after, (List.cons.inj hsplit).2, fun x hx => hno x (by simp [hx]), hc⟩

/-- C6 as stated fails: after inserting two courses with the same number, the
lookup of that number prints the second one, not the first. -/
theorem lookup_returns_each_inserted_course_fails :
    ¬ ∀ (inserted : List Course) (c : Course), c ∈ inserted →
        PrintCourseDetails c.courseNumber (inserted.foldl InsertCourseInSortedOrder [])
          = Printed.output c := by
  intro h
  have h1 := h [courseIntro, courseBasics] courseIntro (by decide)
  revert h1
  decide

/-- C6, amended. After a sequence of courses has been inserted one after
another into an empty vector, looking up the number of a course `c` of that
sequence prints `c` itself, provided no course inserted after `c` carries the
same number. -/
theorem lookup_returns_last_inserted (earlier later : List Course) (c : Course)
    (h : ∀ x ∈ later, x.courseNumber ≠ c.courseNumber) :
    PrintCourseDetails c.courseNumber
        ((earlier ++ c :: later).foldl InsertCourseInSortedOrder [])
      = Printed.output c := by
  rw [List.foldl_append, List.foldl_cons, PrintCourseDetails_foldl_of_no_match _ _ _ h,
    PrintCourseDetails_insert, if_pos rfl]

theorem lookup_returns_last_inserted_witness :
    (∀ x ∈ [courseData], x.courseNumber ≠ courseBasics.courseNumber) ∧
      PrintCourseDetails courseBasics.courseNumber
          (([courseIntro] ++ courseBasics :: [courseData]).foldl InsertCourseInSortedOrder [])
        = Printed.output courseBasics :=
  ⟨by decide, lookup_returns_last_inserted [courseIntro] [courseData] courseBasics (by decide)⟩

/-- C7. `PrintCourseDetails` prints the first course, in vector order, whose
number equals the query byte for byte; it prints the not-found line, which
names the query, exactly when no course has that number. -/
theorem PrintCourseDetails_first_match (q : Str) (courses : List Course) :
    (∀ c, PrintCourseDetails q courses = Printed.output c ↔
        ∃ before after, courses = before ++ c :: after ∧
          (∀ x ∈ before, x.courseNumber ≠ q) ∧ c.courseNumber = q) ∧
      ((∃ n, PrintCourseDetails q courses = Printed.notFound n) ↔
        ∀ x ∈ courses, x.courseNumber ≠ q) ∧
      (∀ n, PrintCourseDetails q courses = Printed.notFound n → n = q) := by
  have hn : ∀ n, PrintCourseDetails q courses = Printed.notFound n → n = q := by
    intro n
    induction courses with
    | nil => simp only [PrintCourseDetails, Printed.notFound.injEq]; exact Eq.symm
    | cons a l ih =>
      by_cases ha : a.courseNumber = q
      · simp [PrintCourseDetails, ha]
      · simpa only [PrintCourseDetails, ha, if_false] using ih
  refine ⟨PrintCourseDetails_output_iff q courses, ?_, hn⟩
  constructor
  · rintro ⟨n, h⟩
    have := hn n h
    subst this
    exact (PrintCourseDetails_notFound_iff _ courses).mp h
  · intro h
    exact ⟨q, (PrintCourseDetails_notFound_iff q courses).mpr h⟩

/-! ## Parsing one line -/

theorem prerequisiteLoop_ok (line : Str) (tokens : List Str) :
    ∀ (prerequisites : List Str), (∀ p ∈ tokens, IsValidCourseNumber p = true) →
      prerequisiteLoop line tokens prerequisites = .ok (prerequisites ++ tokens) := by
  induction tokens with
  | nil => intro prerequisites _; simp [prerequisiteLoop]
  | cons t rest ih =>
    intro prerequisites h
    have ht : IsValidCourseNumber t = true := h t (by simp)
    simp only [prerequisiteLoop, ht, Bool.not_true, Bool.false_eq_true, if_false]
    rw [ih _ (fun p hp => h p (by simp [hp]))]
    simp

theorem prerequisiteLoop_error (line : Str) (tokens : List Str) :
    ∀ (prerequisites : List Str), (∃ p ∈ tokens, IsValidCourseNumber p = false) →
      prerequisiteLoop line tokens prerequisites = .error (errInvalidPrerequisite ++ line) := by
  induction tokens with
  | nil => intro _ h; simp at h
  | cons t rest ih =>
    intro prerequisites h
    cases ht : IsValidCourseNumber t with
    | false => simp [prerequisiteLoop, ht]
    | true =>
      simp only [prerequisiteLoop, ht, Bool.not_true, Bool.false_eq_true, if_false]
      apply ih
      obtain ⟨p, hp, hpv⟩ := h
      rcases List.mem_cons.mp hp with hpt | hpr
      · rw [hpt, ht] at hpv; exact absurd hpv (by simp)
      · exact ⟨p, hpr, hpv⟩

theorem prerequisiteLoop_cases (line : Str) (tokens : List Str) :
    ((∀ p ∈ tokens, IsValidCourseNumber p = true) ∧
        prerequisiteLoop line tokens [] = .ok tokens) ∨
      ((∃ p ∈ tokens, IsValidCourseNumber p = false) ∧
        prerequisiteLoop line tokens [] = .error (errInvalidPrerequisite ++ line)) := by
  by_cases h : ∀ p ∈ tokens, IsValidCourseNumber p = true
  · left
    exact ⟨h, by simpa using prerequisiteLoop_ok line tokens [] h⟩
  · right
    have h' : ∃ p ∈ tokens, IsValidCourseNumber p = false := by
      simpa using h
    exact ⟨h', prerequisiteLoop_error line tokens [] h'⟩

theorem parseLine_short (line : Str) (h : (getlineAll comma line).length < 2) :
    parseLine line = .error (errInvalidCourseEntry ++ line) := by
  simp [parseLine, h]

theorem parseLine_tokens (line number name : Str) (prereqs : List Str)
    (h : getlineAll comma line = number :: name :: prereqs) :
    parseLine line =
      if !IsValidCourseNumber number then .error (errInvalidCourseNumber ++ line)
      else if !IsValidCourseName name then .error (errInvalidCourseName ++ line)
      else
        match prerequisiteLoop line prereqs [] with
        | .error e => .error e
        | .ok prerequisites =>
          .ok { courseNumber := number, courseName := name, prerequisites := prerequisites } := by
  simp [parseLine, h]

/-- Every outcome of `parseLine`: either the string of one of the four
exceptions, which ends with the line, or a valid course whose number is the
first token. -/
theorem parseLine_cases (line : Str) :
    (∃ pre, parseLine line = .error (pre ++ line)) ∨
      (∃ c, parseLine line = .ok c ∧ ValidCourse c ∧
        c.courseNumber = (getlineAll comma line).getD 0 []) := by
  rcases htok : getlineAll comma line with _ | ⟨number, _ | ⟨name, prereqs⟩⟩
  · exact Or.inl ⟨_, parseLine_short line (by simp [htok])⟩
  · exact Or.inl ⟨_, parseLine_short line (by simp [htok])⟩
  · rw [parseLine_tokens line number name prereqs htok]
    cases hnum : IsValidCourseNumber number with
    | false => exact Or.inl ⟨errInvalidCourseNumber, by simp⟩
    | true =>
      cases hname : IsValidCourseName name with
      | false => exact Or.inl ⟨errInvalidCourseName, by simp⟩
      | true =>
        rcases prerequisiteLoop_cases line prereqs with ⟨hall, hok⟩ | ⟨_, herr⟩
        · right
          refine ⟨⟨number, name, prereqs⟩, by simp [hok], ⟨hnum, hname, hall⟩, by simp⟩
        · exact Or.inl ⟨errInvalidPrerequisite, by simp [herr]⟩

theorem parseLine_ok_valid (line : Str) (c : Course) (h : parseLine line = .ok c) :
    ValidCourse c ∧ c.courseNumber = (getlineAll comma line).getD 0 [] := by
  rcases parseLine_cases line with ⟨pre, he⟩ | ⟨c', hc', hv, hn⟩
  · rw [he] at h; cases h
  · rw [hc'] at h
    cases h
    exact ⟨hv, hn⟩

theorem parseLine_error_ends_with_line (line e : Str) (h : parseLine line = .error e) :
    ∃ pre, e = pre ++ line := by
  rcases parseLine_cases line with ⟨pre, he⟩ | ⟨c', hc', _, _⟩
  · rw [he] at h
    cases h
    exact ⟨pre, rfl⟩
  · rw [hc'] at h; cases h

/-- C9. The outcome of one line is decided in this order: fewer than two
tokens (as for every empty line) gives the invalid-entry error; else an
invalid token 0 gives the invalid-number error; else an invalid token 1 gives
the invalid-name error; else an invalid token among tokens 2.. gives the
invalid-prerequisite error; else the course is built from token 0, token 1
and tokens 2.. in order, unchanged. Every exception is constructed from its
literal followed by the line. -/
theorem parseLine_decision_order (line : Str) :
    (getlineAll comma [] = []) ∧
    ((getlineAll comma line).length < 2 →
      parseLine line = .error (errInvalidCourseEntry ++ line)) ∧
    (∀ number name prereqs, getlineAll comma line = number :: name :: prereqs →
      (IsValidCourseNumber number = false →
        parseLine line = .error (errInvalidCourseNumber ++ line)) ∧
      (IsValidCourseNumber number = true → IsValidCourseName name = false →
        parseLine line = .error (errInvalidCourseName ++ line)) ∧
      (IsValidCourseNumber number = true → IsValidCourseName name = true →
        (∃ p ∈ prereqs, IsValidCourseNumber p = false) →
        parseLine line = .error (errInvalidPrerequisite ++ line)) ∧
      (IsValidCourseNumber number = true → IsValidCourseName name = true →
        (∀ p ∈ prereqs, IsValidCourseNumber p = true) →
        parseLine line = .ok ⟨number, name, prereqs⟩)) := by
  refine ⟨rfl, parseLine_short line, ?_⟩
  intro number name prereqs htok
  rw [parseLine_tokens line number name prereqs htok]
  refine ⟨?_, ?_, ?_, ?_⟩
  · intro h; simp [h]
  · intro h1 h2; simp [h1, h2]
  · intro h1 h2 h3
    simp [h1, h2, prerequisiteLoop_error line prereqs [] h3]
  · intro h1 h2 h3
    have := prerequisiteLoop_ok line prereqs [] h3
    simp only [List.nil_append] at this
    simp [h1, h2, this]

theorem parseLine_decision_order_witness :
    parseLine (ascii "CSCI201") = .error (errInvalidCourseEntry ++ ascii "CSCI201") ∧
    parseLine (ascii "CSC201,Data Structures")
      = .error (errInvalidCourseNumber ++ ascii "CSC201,Data Structures") ∧
    parseLine (ascii "CSCI201, ,CSCI101")
      = .error (errInvalidCourseName ++ ascii "CSCI201, ,CSCI101") ∧
    parseLine (ascii "CSCI201,Data Structures,CSCI101,CS-101")
      = .error (errInvalidPrerequisite
          ++ ascii "CSCI201,Data Structures,CSCI101,CS-101") ∧
    parseLine (ascii "CSCI201,Data Structures,CSCI101") = .ok courseData :=
  ⟨(parseLine_decision_order (ascii "CSCI201")).2.1 (by decide),
   ((parseLine_decision_order (ascii "CSC201,Data Structures")).2.2
      (ascii "CSC201") (ascii "Data Structures") [] (by decide)).1 (by decide),
   ((parseLine_decision_order (ascii "CSCI201, ,CSCI101")).2.2
      (ascii "CSCI201") (ascii " ") [ascii "CSCI101"] (by decide)).2.1
      (by decide) (by decide),
   ((parseLine_decision_order (ascii "CSCI201,Data Structures,CSCI101,CS-101")).2.2
      (ascii "CSCI201") (ascii "Data Structures") [ascii "CSCI101", ascii "CS-101"]
      (by decide)).2.2.1 (by decide) (by decide) (by decide),
   ((parseLine_decision_order (ascii "CSCI201,Data Structures,CSCI101")).2.2
      (ascii "CSCI201") (ascii "Data Structures") [ascii "CSCI101"]
      (by decide)).2.2.2 (by decide) (by decide) (by decide)⟩

/-! ## Loading a file -/

theorem parseLine_of_toBool (line : Str) (h : (parseLine line).toBool = true) :
    ∃ c, parseLine line = .ok c := by
  cases hp : parseLine line with
  | error e => rw [hp] at h; cases h
  | ok c => exact ⟨c, rfl⟩

theorem parsedCourses_cons_ok (line : Str) (rest : List Str) (c : Course)
    (h : parseLine line = .ok c) : parsedCourses (line :: rest) = c :: parsedCourses rest := by
  simp [parsedCourses, List.filterMap_cons, h, Except.toOption]

theorem parsedCourses_numbers (lines : List Str)
    (hwf : ∀ line ∈ lines, (parseLine line).toBool = true) :
    (parsedCourses lines).map (fun c => c.courseNumber) = lines.map courseNumberOf := by
  induction lines with
  | nil => rfl
  | cons l rest ih =>
    obtain ⟨c, hc⟩ := parseLine_of_toBool l (hwf l (by simp))
    rw [parsedCourses_cons_ok l rest c hc, List.map_cons, List.map_cons,
      ih (fun x hx => hwf x (by simp [hx])), (parseLine_ok_valid l c hc).2]
    rfl

theorem loadLoop_all_ok (lines : List Str) :
    ∀ (courses : List Course), (∀ line ∈ lines, (parseLine line).toBool = true) →
      loadLoop lines courses
        = ((parsedCourses lines).foldl InsertCourseInSortedOrder courses, none) := by
  induction lines with
  | nil => intro courses _; rfl
  | cons l rest ih =>
    intro courses hwf
    obtain ⟨c, hc⟩ := parseLine_of_toBool l (hwf l (by simp))
    rw [parsedCourses_cons_ok l rest c hc, List.foldl_cons,
      ← ih _ (fun x hx => hwf x (by simp [hx]))]
    simp [loadLoop, hc]

theorem loadLoop_first_error (before : List Str) (bad e : Str) (after : List Str)
    (hbad : parseLine bad = .error e) :
    ∀ (courses : List Course), (∀ line ∈ before, (parseLine line).toBool = true) →
      loadLoop (before ++ bad :: after) courses
        = ((parsedCourses before).foldl InsertCourseInSortedOrder courses, some e) := by
  induction before with
  | nil => intro courses _; simp [loadLoop, hbad, parsedCourses]
  | cons l rest ih =>
    intro courses hwf
    obtain ⟨c, hc⟩ := parseLine_of_toBool l (hwf l (by simp))
    rw [parsedCourses_cons_ok l rest c hc, List.foldl_cons,
      ← ih _ (fun x hx => hwf x (by simp [hx]))]
    simp [loadLoop, hc]

theorem foldl_insert_perm (added : List Course) :
    ∀ (courses : List Course),
      (added.foldl InsertCourseInSortedOrder courses).Perm (courses ++ added) := by
  induction added with
  | nil => intro courses; simp
  | cons a rest ih =>
    intro courses
    rw [List.foldl_cons]
    refine (ih _).trans ?_
    refine ((InsertCourseInSortedOrder_perm courses a).append_right rest).trans ?_
    simpa using (@List.perm_middle Course a courses rest).symm

theorem foldl_insert_ascending (added : List Course) :
    ∀ (courses : List Course), Ascending courses →
      Ascending (added.foldl InsertCourseInSortedOrder courses) := by
  induction added with
  | nil => intro courses h; exact h
  | cons a rest ih =>
    intro courses h
    exact ih _ (InsertCourseInSortedOrder_ascending courses a h)

theorem loadLoop_valid (lines : List Str) :
    ∀ (courses : List Course), (∀ c ∈ courses, ValidCourse c) →
      ∀ c ∈ (loadLoop lines courses).1, ValidCourse c := by
  induction lines with
  | nil => intro courses h; exact h
  | cons l rest ih =>
    intro courses h
    cases hp : parseLine l with
    | error e => simpa [loadLoop, hp] using h
    | ok newCourse =>
      simp only [loadLoop, hp]
      apply ih
      intro c hc
      rcases (mem_InsertCourseInSortedOrder courses newCourse c).mp hc with hcn | hcc
      · rw [hcn]; exact (parseLine_ok_valid l newCourse hp).1
      · exact h c hcc

/-- In an ascending vector whose course numbers are pairwise distinct, every
course number is smaller than all that follow. -/
theorem strictly_ascending_of_nodup (courses : List Course) (h : Ascending courses)
    (hn : (courses.map (fun c => c.courseNumber)).Nodup) :
    courses.Pairwise (fun a b => strLt a.courseNumber b.courseNumber = true) := by
  have hne : courses.Pairwise (fun a b => a.courseNumber ≠ b.courseNumber) :=
    List.pairwise_map.mp hn
  refine (List.Pairwise.and h hne).imp ?_
  rintro a b ⟨hba, hab⟩
  cases hlt : strLt a.courseNumber b.courseNumber with
  | true => rfl
  | false => exact absurd (strLt_connex _ _ hlt hba) hab

/-- Two strictly ascending vectors with the same courses are the same vector. -/
theorem strictly_ascending_unique (l₁ l₂ : List Course) (hp : l₁.Perm l₂)
    (h₁ : l₁.Pairwise (fun a b => strLt a.courseNumber b.courseNumber = true))
    (h₂ : l₂.Pairwise (fun a b => strLt a.courseNumber b.courseNumber = true)) :
    l₁ = l₂ := by
  haveI : IsAntisymm Course (fun a b => strLt a.courseNumber b.courseNumber = true) :=
    ⟨fun a b hab hba => by rw [strLt_asymm _ _ hab] at hba; cases hba⟩
  exact List.eq_of_perm_of_sorted hp h₁ h₂

/-- What loading well-formed lines with distinct numbers into an empty vector
gives. -/
theorem loadLoop_distinct (lines : List Str)
    (hwf : ∀ line ∈ lines, (parseLine line).toBool = true)
    (hdistinct : (lines.map courseNumberOf).Nodup) :
    loadLoop lines [] = ((parsedCourses lines).foldl InsertCourseInSortedOrder [], none) ∧
      ((parsedCourses lines).foldl InsertCourseInSortedOrder []).Perm (parsedCourses lines) ∧
      ((parsedCourses lines).foldl InsertCourseInSortedOrder []).Pairwise
        (fun a b => strLt a.courseNumber b.courseNumber = true) := by
  have hperm : ((parsedCourses lines).foldl InsertCourseInSortedOrder []).Perm
      (parsedCourses lines) := by
    simpa using foldl_insert_perm (parsedCourses lines) []
  refine ⟨loadLoop_all_ok lines [] hwf, hperm, ?_⟩
  apply strictly_ascending_of_nodup
  · exact foldl_insert_ascending _ [] List.Pairwise.nil
  · rw [(hperm.map (fun c => c.courseNumber)).nodup_iff, parsedCourses_numbers lines hwf]
    exact hdistinct

/-- C5. Loading a file of N well-formed lines with pairwise distinct course
numbers into an empty vector succeeds; the vector then holds N courses whose
numbers are the numbers of the lines in strictly ascending order; and every
file with the same lines in another order gives the same vector. -/
theorem LoadCoursesFromFile_distinct_sorted (contents : Str)
    (hwf : ∀ line ∈ getlineAll newline contents, (parseLine line).toBool = true)
    (hdistinct : ((getlineAll newline contents).map courseNumberOf).Nodup) :
    ∃ catalog, LoadCoursesFromFile (some contents) [] = (catalog, none) ∧
      catalog.length = (getlineAll newline contents).length ∧
      (catalog.map (fun c => c.courseNumber)).Pairwise (fun a b => strLt a b = true) ∧
      (catalog.map (fun c => c.courseNumber)).Perm
        ((getlineAll newline contents).map courseNumberOf) ∧
      ∀ contents', (getlineAll newline contents').Perm (getlineAll newline contents) →
        LoadCoursesFromFile (some contents') [] = (catalog, none) := by
  obtain ⟨hload, hperm, hsorted⟩ := loadLoop_distinct _ hwf hdistinct
  have hnum := parsedCourses_numbers _ hwf
  refine ⟨_, hload, ?_, List.pairwise_map.mpr hsorted, ?_, ?_⟩
  · have := congrArg List.length hnum
    rw [List.length_map, List.length_map] at this
    rw [hperm.length_eq, this]
  · rw [← hnum]
    exact hperm.map _
  · intro contents' hp
    have hwf' : ∀ line ∈ getlineAll newline contents', (parseLine line).toBool = true :=
      fun line hl => hwf line (hp.mem_iff.mp hl)
    have hdistinct' : ((getlineAll newline contents').map courseNumberOf).Nodup :=
      ((hp.map courseNumberOf).nodup_iff).mpr hdistinct
    obtain ⟨hload', hperm', hsorted'⟩ := loadLoop_distinct _ hwf' hdistinct'
    have hpc : (parsedCourses (getlineAll newline contents')).Perm
        (parsedCourses (getlineAll newline contents)) := hp.filterMap _
    show loadLoop (getlineAll newline contents') [] = _
    rw [hload', strictly_ascending_unique _ _ ((hperm'.trans hpc).trans hperm.symm)
      hsorted' hsorted]

theorem LoadCoursesFromFile_distinct_sorted_witness :
    LoadCoursesFromFile (some fileTwoLines) [] = ([courseIntro, courseData], none) ∧
      ∃ catalog, LoadCoursesFromFile (some fileTwoLines) [] = (catalog, none) ∧
        LoadCoursesFromFile (some fileTwoLinesSwapped) [] = (catalog, none) := by
  refine ⟨by decide, ?_⟩
  obtain ⟨catalog, h1, _, _, _, h5⟩ :=
    LoadCoursesFromFile_distinct_sorted fileTwoLines (by decide) (by decide)
  exact ⟨catalog, h1, h5 fileTwoLinesSwapped (by decide)⟩

/-- C10. Every course of every vector reachable from the empty one by
`LoadCoursesFromFile` calls, failed ones included, has a number and a name
that pass their validators and prerequisites that all pass
`IsValidCourseNumber`. -/
theorem Reachable_courses_valid (courses : List Course) (h : Reachable courses) :
    ∀ c ∈ courses, ValidCourse c := by
  induction h with
  | empty => intro c hc; cases hc
  | load file courses _ ih =>
    cases file with
    | none => exact ih
    | some contents => exact loadLoop_valid _ courses ih

theorem Reachable_courses_valid_witness :
    courseData ∈
        (LoadCoursesFromFile (some fileBadSecondLine)
          (LoadCoursesFromFile (some fileTwoLines) []).1).1 ∧
      ValidCourse courseData :=
  ⟨by decide,
    Reachable_courses_valid _
      (Reachable.load (some fileBadSecondLine) _
        (Reachable.load (some fileTwoLines) [] Reachable.empty))
      courseData (by decide)⟩

/-! ## Insert-only loading -/

theorem InsertCourseInSortedOrder_sublist (courses : List Course) (newCourse : Course) :
    courses.Sublist (InsertCourseInSortedOrder courses newCourse) := by
  rw [InsertCourseInSortedOrder_eq]
  conv_lhs => rw [← List.takeWhile_append_dropWhile
    (fun x => strLt x.courseNumber newCourse.courseNumber) courses]
  exact List.Sublist.append_left (List.sublist_cons_self _ _) _

theorem loadLoop_sublist (lines : List Str) :
    ∀ (courses : List Course), courses.Sublist (loadLoop lines courses).1 := by
  induction lines with
  | nil => intro courses; exact List.Sublist.refl _
  | cons l rest ih =>
    intro courses
    cases hp : parseLine l with
    | error e => simp [loadLoop, hp]
    | ok newCourse =>
      simp only [loadLoop, hp]
      exact (InsertCourseInSortedOrder_sublist courses newCourse).trans (ih _)

/-- C12. Whatever a `LoadCoursesFromFile` call does, succeed or throw, the
vector it leaves contains the vector it found as a subsequence: every course
that was there is still there, with the same number, name and prerequisites,
and the old courses keep their relative order. -/
theorem LoadCoursesFromFile_insert_only (file : Option Str) (courses : List Course) :
    courses.Sublist (LoadCoursesFromFile file courses).1 ∧
      ∀ c ∈ courses, c ∈ (LoadCoursesFromFile file courses).1 := by
  have h : courses.Sublist (LoadCoursesFromFile file courses).1 := by
    cases file with
    | none => exact List.Sublist.refl _
    | some contents => exact loadLoop_sublist _ courses
  exact ⟨h, fun c hc => h.subset hc⟩

/-! ## A file that does not open -/

theorem parseLine_error_prefix (line e : Str) (h : parseLine line = .error e) :
    ∃ pre ∈ [errInvalidCourseEntry, errInvalidCourseNumber, errInvalidCourseName,
        errInvalidPrerequisite], e = pre ++ line := by
  rcases htok : getlineAll comma line with _ | ⟨number, _ | ⟨name, prereqs⟩⟩
  · rw [parseLine_short line (by simp [htok])] at h
    cases h
    exact ⟨_, by simp, rfl⟩
  · rw [parseLine_short line (by simp [htok])] at h
    cases h
    exact ⟨_, by simp, rfl⟩
  · rw [parseLine_tokens line number name prereqs htok] at h
    cases hnum : IsValidCourseNumber number with
    | false =>
      simp only [hnum, Bool.not_false, if_true] at h
      cases h
      exact ⟨_, by simp, rfl⟩
    | true =>
      cases hname : IsValidCourseName name with
      | false =>
        simp only [hnum, hname, Bool.not_true, Bool.not_false, Bool.false_eq_true, if_false,
          if_true] at h
        cases h
        exact ⟨_, by simp, rfl⟩
      | true =>
        rcases prerequisiteLoop_cases line prereqs with ⟨_, hok⟩ | ⟨_, herr⟩
        · simp [hnum, hname, hok] at h
        · simp only [hnum, hname, herr, Bool.not_true, Bool.false_eq_true, if_false] at h
          cases h
          exact ⟨_, by simp, rfl⟩

theorem parseLine_error_ne_file_error (line : Str) :
    parseLine line ≠ .error errFileDoesNotExist := by
  intro h
  obtain ⟨pre, hpre, he⟩ := parseLine_error_prefix line _ h
  have h8 : errFileDoesNotExist.take 8 = pre.take 8 := by
    have hlen : 8 ≤ pre.length := by
      simp only [List.mem_cons, List.mem_singleton, List.not_mem_nil, or_false] at hpre
      rcases hpre with rfl | rfl | rfl | rfl <;> decide
    rw [he, List.take_append_of_le_length hlen]
  simp only [List.mem_cons, List.mem_singleton, List.not_mem_nil, or_false] at hpre
  rcases hpre with rfl | rfl | rfl | rfl <;> revert h8 <;> decide

theorem loadLoop_error_ne_file_error (lines : List Str) :
    ∀ (courses : List Course), (loadLoop lines courses).2 ≠ some errFileDoesNotExist := by
  induction lines with
  | nil => intro courses h; cases h
  | cons l rest ih =>
    intro courses
    cases hp : parseLine l with
    | error e =>
      simp only [loadLoop, hp, ne_eq, Option.some.injEq]
      intro he
      exact parseLine_error_ne_file_error l (he ▸ hp)
    | ok newCourse =>
      simp only [loadLoop, hp]
      exact ih _

/-- C13. When the file cannot be opened, `LoadCoursesFromFile` throws the
file-does-not-exist error without reading a line and leaves the vector as it
was, an empty one included; a file that does open never gives that error. -/
theorem LoadCoursesFromFile_unopened (courses : List Course) :
    LoadCoursesFromFile none courses = (courses, some errFileDoesNotExist) ∧
      LoadCoursesFromFile none [] = ([], some errFileDoesNotExist) ∧
      ∀ contents, (LoadCoursesFromFile (some contents) courses).2
        ≠ some errFileDoesNotExist :=
  ⟨rfl, rfl, fun _ => loadLoop_error_ne_file_error _ courses⟩

/-! ## Printing one course -/

theorem PrintCourses_append (l₁ l₂ : List Course) :
    PrintCourses (l₁ ++ l₂) = PrintCourses l₁ ++ PrintCourses l₂ := by
  induction l₁ with
  | nil => rfl
  | cons a l ih => simp [PrintCourses, ih]

theorem PrintCourses_singleton (c : Course) : PrintCourses [c] = c.Output := by
  simp [PrintCourses]

/-- C14. When some course has the requested number, `PrintCourseDetails`
writes exactly the line that `PrintCourses` writes for the first such course,
the line found in the listing between the lines of the courses before and
after it; when no course has the number it writes the not-found line, which
contains the requested number. -/
theorem PrintCourseDetails_text (q : Str) (courses : List Course) :
    (∀ before c after, courses = before ++ c :: after →
        (∀ x ∈ before, x.courseNumber ≠ q) → c.courseNumber = q →
        (PrintCourseDetails q courses).text = PrintCourses [c] ∧
        (PrintCourseDetails q courses).text = c.Output ∧
        PrintCourses courses
          = PrintCourses before ++ (PrintCourseDetails q courses).text ++ PrintCourses after) ∧
      ((∀ x ∈ courses, x.courseNumber ≠ q) →
        (PrintCourseDetails q courses).text = ascii "Course not found: " ++ q ++ [newline]) := by
  constructor
  · intro before c after hsplit hno hc
    have hout : PrintCourseDetails q courses = Printed.output c :=
      (PrintCourseDetails_output_iff q courses c).mpr ⟨before, after, hsplit, hno, hc⟩
    rw [hout, PrintCourses_singleton]
    refine ⟨rfl, rfl, ?_⟩
    rw [hsplit, PrintCourses_append]
    simp [PrintCourses, Printed.text]
  · intro hno
    rw [(PrintCourseDetails_notFound_iff q courses).mpr hno]
    rfl

theorem PrintCourseDetails_text_witness :
    (PrintCourseDetails (ascii "CSCI201") [courseIntro, courseData, courseAlgo]).text
        = ascii "Course Number: CSCI201, Course Name: Data Structures, Prerequisites: CSCI101 \n" ∧
      (PrintCourseDetails (ascii "CSCI201") [courseIntro, courseData, courseAlgo]).text
        = PrintCourses [courseData] ∧
      (PrintCourseDetails (ascii "CSCI999") [courseIntro, courseData, courseAlgo]).text
        = ascii "Course not found: " ++ ascii "CSCI999" ++ [newline] :=
  ⟨by decide,
   ((PrintCourseDetails_text (ascii "CSCI201") [courseIntro, courseData, courseAlgo]).1
      [courseIntro] courseData [courseAlgo] (by decide) (by decide) (by decide)).1,
   (PrintCourseDetails_text (ascii "CSCI999") [courseIntro, courseData, courseAlgo]).2
      (by decide)⟩

/-! ## The insertion as a pure list operation -/

theorem firstNotLessIndex_nil (c : Course) : firstNotLessIndex [] c = 0 := rfl

theorem firstNotLessIndex_cons (x : Course) (xs : List Course) (c : Course) :
    firstNotLessIndex (x :: xs) c
      = if strLt x.courseNumber c.courseNumber = true then firstNotLessIndex xs c + 1 else 0 := by
  unfold firstNotLessIndex
  rw [List.findIdx_cons]
  cases strLt x.courseNumber c.courseNumber <;> simp

theorem take_firstNotLessIndex (courses : List Course) (c : Course) :
    courses.take (firstNotLessIndex courses c)
      = courses.takeWhile (fun x => strLt x.courseNumber c.courseNumber) := by
  induction courses with
  | nil => rfl
  | cons x xs ih =>
    rw [firstNotLessIndex_cons]
    cases h : strLt x.courseNumber c.courseNumber with
    | true => simp [List.takeWhile_cons, h, ih]
    | false => simp [List.takeWhile_cons, h]

theorem drop_firstNotLessIndex (courses : List Course) (c : Course) :
    courses.drop (firstNotLessIndex courses c)
      = courses.dropWhile (fun x => strLt x.courseNumber c.courseNumber) := by
  induction courses with
  | nil => rfl
  | cons x xs ih =>
    rw [firstNotLessIndex_cons]
    cases h : strLt x.courseNumber c.courseNumber with
    | true => simp [List.dropWhile_cons, h, ih]
    | false => simp [List.dropWhile_cons, h]

theorem firstNotLessIndex_spec (courses : List Course) (c : Course) :
    firstNotLessIndex courses c ≤ courses.length ∧
      (∀ j, j < firstNotLessIndex courses c →
        strLt (courses.getD j default).courseNumber c.courseNumber = true) ∧
      (firstNotLessIndex courses c < courses.length →
        strLt (courses.getD (firstNotLessIndex courses c) default).courseNumber
          c.courseNumber = false) := by
  induction courses with
  | nil => simp [firstNotLessIndex_nil]
  | cons x xs ih =>
    obtain ⟨ih1, ih2, ih3⟩ := ih
    rw [firstNotLessIndex_cons]
    cases h : strLt x.courseNumber c.courseNumber with
    | true =>
      simp only [if_true, List.length_cons]
      refine ⟨by omega, ?_, ?_⟩
      · intro j hj
        cases j with
        | zero => simpa using h
        | succ j => simpa using ih2 j (by omega)
      · intro hlt
        simpa using ih3 (by omega)
    | false =>
      simp only [Bool.false_eq_true, if_false, List.length_cons]
      refine ⟨by omega, fun j hj => absurd hj (by omega), fun _ => ?_⟩
      simpa using h

/-- C15. The scan loop, `push_back`, shift loop and final assignment of
`InsertCourseInSortedOrder` give the pure-list insertion
`cs[0..i) ++ [c] ++ cs[i..)`, where `i` is the index of the first course whose
number is not less than the number of `c`, and the length of `cs` when there
is none. -/
theorem InsertCourseInSortedOrder_refines (courses : List Course) (newCourse : Course) :
    InsertCourseInSortedOrder courses newCourse = insertBeforeFirstNotLess courses newCourse ∧
      InsertCourseInSortedOrder courses newCourse
        = courses.take (firstNotLessIndex courses newCourse) ++ [newCourse]
          ++ courses.drop (firstNotLessIndex courses newCourse) ∧
      firstNotLessIndex courses newCourse ≤ courses.length ∧
      (∀ j, j < firstNotLessIndex courses newCourse →
        strLt (courses.getD j default).courseNumber newCourse.courseNumber = true) ∧
      (firstNotLessIndex courses newCourse < courses.length →
        strLt (courses.getD (firstNotLessIndex courses newCourse) default).courseNumber
          newCourse.courseNumber = false) := by
  have h : InsertCourseInSortedOrder courses newCourse
      = insertBeforeFirstNotLess courses newCourse := by
    unfold insertBeforeFirstNotLess
    rw [InsertCourseInSortedOrder_eq, take_firstNotLessIndex, drop_firstNotLessIndex]
    simp
  exact ⟨h, h, firstNotLessIndex_spec courses newCourse⟩

/-! ## Inserting a number that is already there -/

/-- C16. In an ascending vector that already holds courses with the number
of the new course, the insertion puts the new course immediately before the
first of them, and a lookup of that number right afterwards prints the new
course. -/
theorem InsertCourseInSortedOrder_duplicate (courses : List Course) (newCourse : Course)
    (hsorted : Ascending courses)
    (hdup : ∃ x ∈ courses, x.courseNumber = newCourse.courseNumber) :
    ∃ before first after, courses = before ++ first :: after ∧
      first.courseNumber = newCourse.courseNumber ∧
      (∀ x ∈ before, x.courseNumber ≠ newCourse.courseNumber) ∧
      InsertCourseInSortedOrder courses newCourse = before ++ newCourse :: first :: after ∧
      PrintCourseDetails newCourse.courseNumber (InsertCourseInSortedOrder courses newCourse)
        = Printed.output newCourse := by
  have hsplit := List.takeWhile_append_dropWhile
    (fun x => strLt x.courseNumber newCourse.courseNumber) courses
  have hbefore : ∀ x ∈ courses.takeWhile
      (fun x => strLt x.courseNumber newCourse.courseNumber),
      x.courseNumber ≠ newCourse.courseNumber := by
    intro x hx hxe
    have hlt : strLt x.courseNumber newCourse.courseNumber = true := by
      simpa using List.mem_takeWhile_imp hx
    rw [hxe, strLt_irrefl] at hlt
    exact Bool.false_ne_true hlt
  obtain ⟨x, hx, hxe⟩ := hdup
  have hxd : x ∈ courses.dropWhile (fun x => strLt x.courseNumber newCourse.courseNumber) := by
    rw [← hsplit] at hx
    rcases List.mem_append.mp hx with h1 | h2
    · exact absurd hxe (hbefore x h1)
    · exact h2
  cases hd : courses.dropWhile (fun x => strLt x.courseNumber newCourse.courseNumber) with
  | nil => rw [hd] at hxd; cases hxd
  | cons d rest =>
    have hdc : strLt d.courseNumber newCourse.courseNumber = false := by
      have := List.head_dropWhile_not
        (fun x => strLt x.courseNumber newCourse.courseNumber) courses (by rw [hd]; simp)
      simpa [hd] using this
    have hsd : Ascending (d :: rest) := by
      unfold Ascending at hsorted ⊢
      rw [← hsplit, List.pairwise_append, hd] at hsorted
      exact hsorted.2.1
    have hcd : strLt newCourse.courseNumber d.courseNumber = false := by
      rw [hd] at hxd
      rcases List.mem_cons.mp hxd with hxd' | hxr
      · rw [← hxe, hxd']; exact strLt_irrefl _
      · rw [← hxe]
        exact (List.pairwise_cons.mp hsd).1 x hxr
    refine ⟨_, d, rest, ?_, strLt_connex _ _ hdc hcd, hbefore, ?_, ?_⟩
    · rw [← hd, hsplit]
    · rw [InsertCourseInSortedOrder_eq, hd]
    · rw [PrintCourseDetails_insert, if_pos rfl]

theorem InsertCourseInSortedOrder_duplicate_witness :
    Ascending [courseIntro, courseData] ∧
      InsertCourseInSortedOrder [courseIntro, courseData] courseBasics
        = [courseBasics, courseIntro, courseData] ∧
      ∃ before first after, [courseIntro, courseData] = before ++ first :: after ∧
        first.courseNumber = courseBasics.courseNumber ∧
        (∀ x ∈ before, x.courseNumber ≠ courseBasics.courseNumber) ∧
        InsertCourseInSortedOrder [courseIntro, courseData] courseBasics
          = before ++ courseBasics :: first :: after ∧
        PrintCourseDetails courseBasics.courseNumber
            (InsertCourseInSortedOrder [courseIntro, courseData] courseBasics)
          = Printed.output courseBasics :=
  ⟨by decide, by decide,
    InsertCourseInSortedOrder_duplicate [courseIntro, courseData] courseBasics (by decide)
      ⟨courseIntro, by decide, by decide⟩⟩

/-! ## The tokenizer and a trailing comma -/

theorem getlineLoop_trailing_delim (delim : Byte) (s : Str) :
    ∀ (token : Str), (s ≠ [] ∨ token ≠ []) → s.getLast? ≠ some delim →
      getlineLoop delim (s ++ [delim]) token = getlineLoop delim s token := by
  induction s with
  | nil =>
    intro token h _
    have ht : token ≠ [] := by
      rcases h with h | h
      · exact absurd rfl h
      · exact h
    cases token with
    | nil => exact absurd rfl ht
    | cons a l => simp [getlineLoop]
  | cons c rest ih =>
    intro token _ hlast
    by_cases hc : c = delim
    · have hrest : rest ≠ [] := by
        intro h0
        rw [h0, hc] at hlast
        exact hlast rfl
      have hlast' : rest.getLast? ≠ some delim := by
        cases rest with
        | nil => exact absurd rfl hrest
        | cons b r => rwa [List.getLast?_cons_cons] at hlast
      simp only [List.cons_append, getlineLoop, hc, if_true]
      show token :: getlineLoop delim (rest ++ [delim]) [] = _
      rw [ih [] (Or.inl hrest) hlast']
    · have hlast' : rest.getLast? ≠ some delim := by
        cases rest with
        | nil => simp
        | cons b r => rwa [List.getLast?_cons_cons] at hlast
      simp only [List.cons_append, getlineLoop, hc, if_false]
      show getlineLoop delim (rest ++ [delim]) (token ++ [c]) = _
      exact ih (token ++ [c]) (Or.inr (by simp)) hlast'

theorem getlineLoop_field (delim : Byte) (s rest : Str) :
    ∀ (token : Str), delim ∉ s →
      getlineLoop delim (s ++ delim :: rest) token
        = (token ++ s) :: getlineLoop delim rest [] := by
  induction s with
  | nil => intro token _; simp [getlineLoop]
  | cons c l ih =>
    intro token hs
    have hc : c ≠ delim := fun h => hs (by simp [h])
    have hl : delim ∉ l := fun h => hs (by simp [h])
    simp only [List.cons_append, getlineLoop, hc, if_false]
    show getlineLoop delim (l ++ delim :: rest) (token ++ [c]) = _
    rw [ih (token ++ [c]) hl]
    simp

theorem IsValidCourseNumber_alnum (number : Str) (h : IsValidCourseNumber number = true) :
    (number.filter (fun c => !isspace c)).length = 7 ∧
      ∀ c ∈ number.filter (fun c => !isspace c), isalnum c = true := by
  unfold IsValidCourseNumber at h
  by_cases hlen : (number.filter (fun c => !isspace c)).length = 7
  · simp only [hlen, bne_self_eq_false, Bool.false_eq_true, if_false] at h
    exact ⟨hlen, (allAlnumLoop_iff _).mp h⟩
  · simp [hlen] at h

theorem comma_not_mem_of_valid (number : Str) (h : IsValidCourseNumber number = true) :
    comma ∉ number := by
  intro hc
  have hf : comma ∈ number.filter (fun c => !isspace c) :=
    List.mem_filter.mpr ⟨hc, by decide⟩
  have h2 := (IsValidCourseNumber_alnum number h).2 comma hf
  revert h2
  decide

/-- C17. A single comma at the end of a non-empty line that does not already
end in a comma adds no token. So `number,name,` with a valid number and a
valid comma-free name is accepted with no prerequisites, and `number,` gives
the one token `number` and is rejected with the invalid-entry error, not with
the invalid-name error. -/
theorem getlineAll_trailing_comma :
    (∀ line : Str, line ≠ [] → line.getLast? ≠ some comma →
      getlineAll comma (line ++ [comma]) = getlineAll comma line) ∧
    (∀ number name : Str, IsValidCourseNumber number = true →
      IsValidCourseName name = true → comma ∉ name →
      parseLine (number ++ [comma] ++ name ++ [comma]) = .ok ⟨number, name, []⟩) ∧
    (∀ number : Str, IsValidCourseNumber number = true →
      getlineAll comma (number ++ [comma]) = [number] ∧
      parseLine (number ++ [comma])
        = .error (errInvalidCourseEntry ++ (number ++ [comma])) ∧
      parseLine (number ++ [comma])
        ≠ .error (errInvalidCourseName ++ (number ++ [comma]))) := by
  refine ⟨?_, ?_, ?_⟩
  · intro line hne hlast
    exact getlineLoop_trailing_delim comma line [] (Or.inl hne) hlast
  · intro number name hnum hname hcomma
    have htok : getlineAll comma (number ++ [comma] ++ name ++ [comma]) = [number, name] := by
      unfold getlineAll
      have h1 : number ++ [comma] ++ name ++ [comma]
          = number ++ comma :: (name ++ comma :: []) := by simp
      rw [h1, getlineLoop_field comma number _ [] (comma_not_mem_of_valid number hnum),
        getlineLoop_field comma name [] [] hcomma]
      simp [getlineLoop]
    rw [parseLine_tokens _ number name [] htok]
    simp [hnum, hname, prerequisiteLoop]
  · intro number hnum
    have htok : getlineAll comma (number ++ [comma]) = [number] := by
      unfold getlineAll
      rw [getlineLoop_field comma number [] [] (comma_not_mem_of_valid number hnum)]
      simp [getlineLoop]
    have hlen : (getlineAll comma (number ++ [comma])).length < 2 := by
      rw [htok]; simp
    have herr := parseLine_short (number ++ [comma]) hlen
    refine ⟨htok, herr, ?_⟩
    rw [herr]
    intro h
    have h2 := List.append_cancel_right (Except.error.inj h)
    revert h2
    decide

theorem getlineAll_trailing_comma_witness :
    getlineAll comma (ascii "CSCI101,Intro to Programming,")
        = getlineAll comma (ascii "CSCI101,Intro to Programming") ∧
      parseLine (ascii "CSCI101" ++ [comma] ++ ascii "Intro to Programming" ++ [comma])
        = .ok courseIntro ∧
      parseLine (ascii "CSCI101" ++ [comma])
        = .error (errInvalidCourseEntry ++ (ascii "CSCI101" ++ [comma])) :=
  ⟨getlineAll_trailing_comma.1 (ascii "CSCI101,Intro to Programming") (by decide) (by decide),
   getlineAll_trailing_comma.2.1 (ascii "CSCI101") (ascii "Intro to Programming")
     (by decide) (by decide) (by decide),
   (getlineAll_trailing_comma.2.2 (ascii "CSCI101") (by decide)).2.1⟩

/-! ## A stored number that still carries whitespace -/

theorem loadLoop_single (line : Str) (c : Course) (h : parseLine line = .ok c) :
    loadLoop [line] [] = ([c], none) := by
  simp [loadLoop, h, InsertCourseInSortedOrder_eq]

/-- C18. There is a well-formed line whose course cannot be found by its
7-character number. Whenever token 0 of the only line of a file contains
whitespace and the line is accepted, the course is stored with token 0 as it
stands, and looking up the 7 characters left after removing the whitespace
prints the not-found line. -/
theorem lookup_of_stripped_number_not_found :
    (∃ contents line c, getlineAll newline contents = [line] ∧ parseLine line = .ok c ∧
      LoadCoursesFromFile (some contents) [] = ([c], none) ∧
      (c.courseNumber.filter (fun b => !isspace b)).length = 7 ∧
      PrintCourseDetails (c.courseNumber.filter (fun b => !isspace b))
          (LoadCoursesFromFile (some contents) []).1
        = Printed.notFound (c.courseNumber.filter (fun b => !isspace b))) ∧
    (∀ contents line c, getlineAll newline contents = [line] → parseLine line = .ok c →
      (∃ b ∈ courseNumberOf line, isspace b = true) →
      IsValidCourseNumber (courseNumberOf line) = true ∧
      c.courseNumber = courseNumberOf line ∧
      LoadCoursesFromFile (some contents) [] = ([c], none) ∧
      (c.courseNumber.filter (fun b => !isspace b)).length = 7 ∧
      PrintCourseDetails (c.courseNumber.filter (fun b => !isspace b))
          (LoadCoursesFromFile (some contents) []).1
        = Printed.notFound (c.courseNumber.filter (fun b => !isspace b))) := by
  have general : ∀ contents line c, getlineAll newline contents = [line] →
      parseLine line = .ok c → (∃ b ∈ courseNumberOf line, isspace b = true) →
      IsValidCourseNumber (courseNumberOf line) = true ∧
      c.courseNumber = courseNumberOf line ∧
      LoadCoursesFromFile (some contents) [] = ([c], none) ∧
      (c.courseNumber.filter (fun b => !isspace b)).length = 7 ∧
      PrintCourseDetails (c.courseNumber.filter (fun b => !isspace b))
          (LoadCoursesFromFile (some contents) []).1
        = Printed.notFound (c.courseNumber.filter (fun b => !isspace b)) := by
    intro contents line c hlines hparse hspace
    have hvalid : ValidCourse c := (parseLine_ok_valid line c hparse).1
    have hnum : c.courseNumber = courseNumberOf line := (parseLine_ok_valid line c hparse).2
    have hload : LoadCoursesFromFile (some contents) [] = ([c], none) := by
      show loadLoop (getlineAll newline contents) [] = _
      rw [hlines]
      exact loadLoop_single line c hparse
    have hne : c.courseNumber ≠ c.courseNumber.filter (fun b => !isspace b) := by
      intro heq
      obtain ⟨b, hb, hbs⟩ := hspace
      rw [← hnum, heq] at hb
      have := (List.mem_filter.mp hb).2
      rw [hbs] at this
      exact absurd this (by decide)
    refine ⟨hnum ▸ hvalid.1, hnum, hload, (IsValidCourseNumber_alnum _ hvalid.1).1, ?_⟩
    rw [hload]
    simp [PrintCourseDetails, hne]
  refine ⟨⟨fileTrailingSpace, ascii "CSCI101 ,Intro to Programming",
    ⟨ascii "CSCI101 ", ascii "Intro to Programming", []⟩, by decide, by rfl, ?_⟩, general⟩
  have h := general fileTrailingSpace (ascii "CSCI101 ,Intro to Programming")
    ⟨ascii "CSCI101 ", ascii "Intro to Programming", []⟩ (by decide) (by rfl)
    ⟨32, by decide, by decide⟩
  exact h.2.2

theorem lookup_of_stripped_number_not_found_witness :
    LoadCoursesFromFile (some fileTrailingSpace) []
        = ([⟨ascii "CSCI101 ", ascii "Intro to Programming", []⟩], none) ∧
      PrintCourseDetails (ascii "CSCI101") (LoadCoursesFromFile (some fileTrailingSpace) []).1
        = Printed.notFound (ascii "CSCI101") ∧
      IsValidCourseNumber (courseNumberOf (ascii "CSCI101 ,Intro to Programming")) = true :=
  ⟨by decide, by decide,
    (lookup_of_stripped_number_not_found.2 fileTrailingSpace
      (ascii "CSCI101 ,Intro to Programming")
      ⟨ascii "CSCI101 ", ascii "Intro to Programming", []⟩ (by decide) (by rfl)
      ⟨32, by decide, by decide⟩).1⟩

/-! ## Course numbers that occur twice -/

theorem loadLoop_eq_inserted (lines : List Str) :
    ∀ (courses : List Course),
      (loadLoop lines courses).1
        = (parsedCourses (lines.takeWhile (fun l => (parseLine l).toBool))).foldl
            InsertCourseInSortedOrder courses := by
  induction lines with
  | nil => intro courses; rfl
  | cons l rest ih =>
    intro courses
    cases hp : parseLine l with
    | error e => simp [loadLoop, hp, List.takeWhile_cons, Except.toBool, parsedCourses]
    | ok c =>
      have hb : (parseLine l).toBool = true := by rw [hp]; rfl
      rw [List.takeWhile_cons, hb]
      simp only [if_true]
      rw [parsedCourses_cons_ok l _ c hp, List.foldl_cons, ← ih]
      simp [loadLoop, hp]

theorem LoadCoursesFromFile_eq_inserted (file : Option Str) (courses : List Course) :
    (LoadCoursesFromFile file courses).1
      = (parsedCourses (insertedLines file)).foldl InsertCourseInSortedOrder courses := by
  cases file with
  | none => rfl
  | some contents => exact loadLoop_eq_inserted _ courses

theorem insertedLines_wf (file : Option Str) :
    ∀ line ∈ insertedLines file, (parseLine line).toBool = true := by
  intro line hl
  cases file with
  | none => cases hl
  | some contents =>
    exact List.mem_takeWhile_imp (p := fun l => (parseLine l).toBool) hl

theorem foldl_load_perm (files : List (Option Str)) :
    ∀ (courses : List Course),
      (files.foldl (fun courses file => (LoadCoursesFromFile file courses).1) courses).Perm
        (courses ++ parsedCourses (files.flatMap insertedLines)) := by
  induction files with
  | nil => intro courses; simp [parsedCourses]
  | cons f rest ih =>
    intro courses
    rw [List.foldl_cons]
    refine (ih _).trans ?_
    rw [LoadCoursesFromFile_eq_inserted, List.flatMap_cons]
    have happ : parsedCourses (insertedLines f ++ rest.flatMap insertedLines)
        = parsedCourses (insertedLines f) ++ parsedCourses (rest.flatMap insertedLines) := by
      simp [parsedCourses]
    rw [happ, ← List.append_assoc]
    exact (foldl_insert_perm _ courses).append_right _

theorem foldl_load_reachable (files : List (Option Str)) :
    ∀ (courses : List Course), Reachable courses →
      Reachable (files.foldl (fun courses file => (LoadCoursesFromFile file courses).1)
        courses) := by
  induction files with
  | nil => intro courses h; exact h
  | cons f rest ih =>
    intro courses h
    exact ih _ (Reachable.load f courses h)

/-- The reachable vectors are those that a sequence of load calls builds from
the empty vector. -/
theorem Reachable_iff_loadAll (courses : List Course) :
    Reachable courses ↔ ∃ files, courses = loadAll files := by
  constructor
  · intro h
    induction h with
    | empty => exact ⟨[], rfl⟩
    | load file courses _ ih =>
      obtain ⟨files, hf⟩ := ih
      refine ⟨files ++ [file], ?_⟩
      rw [hf]
      simp [loadAll, List.foldl_append]
  · rintro ⟨files, rfl⟩
    exact foldl_load_reachable files [] Reachable.empty

theorem loadAll_numbers_perm (files : List (Option Str)) :
    ((loadAll files).map (fun c => c.courseNumber)).Perm
      ((files.flatMap insertedLines).map courseNumberOf) := by
  have hperm : (loadAll files).Perm (parsedCourses (files.flatMap insertedLines)) := by
    simpa using foldl_load_perm files []
  have hwf : ∀ line ∈ files.flatMap insertedLines, (parseLine line).toBool = true := by
    intro line hl
    obtain ⟨f, _, hlf⟩ := List.mem_flatMap.mp hl
    exact insertedLines_wf f line hlf
  rw [← parsedCourses_numbers _ hwf]
  exact hperm.map _

/-- C11 as stated fails: after the same two-line file has been loaded twice,
the vector holds every course number twice. -/
theorem Reachable_numbers_distinct_fails :
    ¬ ∀ courses : List Course, Reachable courses →
        (courses.map (fun c => c.courseNumber)).Nodup := by
  intro h
  have h1 := h _ (Reachable.load (some fileTwoLines) _
    (Reachable.load (some fileTwoLines) [] Reachable.empty))
  revert h1
  decide

/-- C11, amended. The vector reached by a sequence of load calls from the
empty vector holds one course for every line those calls inserted, with that
line's number; so no two of its courses have the same number provided the
inserted lines carry pairwise distinct numbers. -/
theorem loadAll_numbers_distinct (files : List (Option Str))
    (h : ((files.flatMap insertedLines).map courseNumberOf).Nodup) :
    Reachable (loadAll files) ∧
      ((loadAll files).map (fun c => c.courseNumber)).Perm
        ((files.flatMap insertedLines).map courseNumberOf) ∧
      ((loadAll files).map (fun c => c.courseNumber)).Nodup :=
  ⟨foldl_load_reachable files [] Reachable.empty, loadAll_numbers_perm files,
    (loadAll_numbers_perm files).nodup_iff.mpr h⟩

theorem loadAll_numbers_distinct_witness :
    loadAll [some fileTwoLines, none, some fileTrailingSpace]
        = [courseIntro, ⟨ascii "CSCI101 ", ascii "Intro to Programming", []⟩, courseData] ∧
      ((loadAll [some fileTwoLines, none, some fileTrailingSpace]).map
        (fun c => c.courseNumber)).Nodup :=
  ⟨by decide,
    (loadAll_numbers_distinct [some fileTwoLines, none, some fileTrailingSpace]
      (by decide)).2.2⟩

/-! ## The 32-bit counters stay in range -/

theorem intToUnsigned_natCast (n : Nat) (h : n < 4294967296) :
    intToUnsigned (n : Int) = n := by
  unfold intToUnsigned
  omega

theorem intToSize_natCast (n : Nat) (h : n < 4294967296) : intToSize (n : Int) = n := by
  unfold intToSize
  omega

theorem sizeToInt_small (n : Nat) (h : n < 2147483648) : sizeToInt n = (n : Int) := by
  unfold sizeToInt
  have h1 : n % 4294967296 = n := Nat.mod_eq_of_lt (by omega)
  rw [h1, if_pos h]

theorem scanLoopChecked_eq (courses : List Course) (newCourse : Course)
    (hsize : courses.length < 2147483648) :
    ∀ (fuel index : Nat) (seen : List Nat), index ≤ courses.length →
      courses.length < index + fuel →
      ∃ seen', scanLoopChecked courses newCourse fuel index seen
          = some (index + ((courses.drop index).takeWhile
              (fun x => strLt x.courseNumber newCourse.courseNumber)).length, seen') ∧
        ∀ k ∈ seen', k ∈ seen ∨ k ≤ courses.length := by
  intro fuel
  induction fuel with
  | zero => intro index seen h1 h2; omega
  | succ fuel ih =>
    intro index seen h1 h2
    by_cases hlt : index < courses.length
    · have hget : courses[index]? = some courses[index] := List.getElem?_eq_getElem hlt
      rw [List.drop_eq_getElem_cons hlt]
      cases hp : strLt courses[index].courseNumber newCourse.courseNumber with
      | true =>
        have hmod : (index + 1) % 4294967296 = index + 1 := Nat.mod_eq_of_lt (by omega)
        obtain ⟨seen', hrun, hseen⟩ := ih (index + 1) (seen ++ [index]) hlt (by omega)
        refine ⟨seen', ?_, ?_⟩
        · simp only [scanLoopChecked, hlt, if_true, hget, hp, hmod, List.takeWhile_cons,
            List.length_cons]
          rw [hrun]
          congr 2
          omega
        · intro k hk
          rcases hseen k hk with h | h
          · rcases List.mem_append.mp h with h' | h'
            · exact Or.inl h'
            · right
              rw [List.mem_singleton.mp h']
              omega
          · exact Or.inr h
      | false =>
        refine ⟨seen ++ [index], ?_, ?_⟩
        · simp only [scanLoopChecked, hlt, if_true, hget, hp, Bool.false_eq_true, if_false,
            List.takeWhile_cons, List.length_nil, Nat.add_zero]
        · intro k hk
          rcases List.mem_append.mp hk with h' | h'
          · exact Or.inl h'
          · right
            rw [List.mem_singleton.mp h']
            omega
    · have hidx : index = courses.length := by omega
      refine ⟨seen ++ [index], ?_, ?_⟩
      · simp [scanLoopChecked, hlt, hidx]
      · intro k hk
        rcases List.mem_append.mp hk with h' | h'
        · exact Or.inl h'
        · right
          rw [List.mem_singleton.mp h']
          omega

theorem shiftLoopChecked_eq (index : Nat) (hindex : index < 4294967296) :
    ∀ (i fuel : Nat) (courses : List Course) (seen : List Int), i < courses.length →
      i < 2147483648 → i < fuel →
      ∃ seen', shiftLoopChecked index fuel (i : Int) courses seen
          = some (shiftLoop index i courses, seen') ∧
        ∀ k ∈ seen', k ∈ seen ∨ (1 ≤ k ∧ k ≤ (i : Int)) := by
  intro i
  induction i with
  | zero =>
    intro fuel courses seen _ _ hfuel
    obtain ⟨fuel, rfl⟩ : ∃ f, fuel = f + 1 := ⟨fuel - 1, by omega⟩
    refine ⟨seen, ?_, fun k hk => Or.inl hk⟩
    have h0 : ¬ intToUnsigned ((0 : Nat) : Int) > index := by
      rw [intToUnsigned_natCast 0 (by omega)]
      omega
    simp only [shiftLoopChecked, h0, if_false, shiftLoop]
  | succ i ih =>
    intro fuel courses seen hlen hsmall hfuel
    obtain ⟨fuel, rfl⟩ : ∃ f, fuel = f + 1 := ⟨fuel - 1, by omega⟩
    have hu : intToUnsigned ((i + 1 : Nat) : Int) = i + 1 :=
      intToUnsigned_natCast (i + 1) (by omega)
    have hs : intToSize ((i + 1 : Nat) : Int) = i + 1 := intToSize_natCast (i + 1) (by omega)
    have hpred : ((i + 1 : Nat) : Int) - 1 = (i : Int) := by omega
    have hs1 : intToSize (i : Int) = i := intToSize_natCast i (by omega)
    have hmin : ¬ ((i + 1 : Nat) : Int) ≤ -2147483648 := by omega
    by_cases hgt : i + 1 > index
    · have hget : courses[i]? = some (courses.getD i default) := by
        rw [List.getD_eq_getElem _ _ (by omega : i < courses.length)]
        exact List.getElem?_eq_getElem _
      obtain ⟨seen', hrun, hseen⟩ := ih fuel (courses.set (i + 1) (courses.getD i default))
        (seen ++ [((i + 1 : Nat) : Int)]) (by rw [List.length_set]; omega) (by omega)
        (by omega)
      refine ⟨seen', ?_, ?_⟩
      · simp only [shiftLoopChecked, hu, hgt, if_true, hmin, if_false, hpred, hs1, hget, hs,
          hlen, shiftLoop]
        exact hrun
      · intro k hk
        rcases hseen k hk with h | h
        · rcases List.mem_append.mp h with h' | h'
          · exact Or.inl h'
          · right
            rw [List.mem_singleton.mp h']
            omega
        · right
          omega
    · refine ⟨seen, ?_, fun k hk => Or.inl hk⟩
      simp only [shiftLoopChecked, hu, hgt, if_false, shiftLoop]

/-- C19. On a vector of fewer than 2^31 courses a checked run of
`InsertCourseInSortedOrder` with 32-bit counters ends (any bound above the
size on the tests of each loop is enough), no access leaves the vector, and
the result is that of the insertion with unbounded counters; `index` never
exceeds the old size, and `i` stays between 1 and the new size minus 1 in
the shift, so `courses[i]` and `courses[i - 1]` both exist and `i` is never
negative. -/
theorem InsertCourseInSortedOrderChecked_in_bounds (courses : List Course)
    (newCourse : Course) (fuel : Nat) (hsize : courses.length < 2 ^ 31)
    (hfuel : courses.length < fuel) :
    ∃ run, InsertCourseInSortedOrderChecked fuel courses newCourse = some run ∧
      run.courses = InsertCourseInSortedOrder courses newCourse ∧
      (∀ index ∈ run.scanIndices, index ≤ courses.length) ∧
      (∀ i ∈ run.shiftCounters, 1 ≤ i ∧ i ≤ ((courses ++ [default]).length : Int) - 1) := by
  have hsize' : courses.length < 2147483648 := by
    have : (2 : Nat) ^ 31 = 2147483648 := by norm_num
    omega
  obtain ⟨scanned, hscan, hscanned⟩ :=
    scanLoopChecked_eq courses newCourse hsize' fuel 0 [] (Nat.zero_le _) (by omega)
  simp only [List.drop_zero, Nat.zero_add] at hscan
  have hidx := scanLoop_eq courses newCourse courses.length 0 (Nat.zero_le _) (by omega)
  simp only [List.drop_zero, Nat.zero_add] at hidx
  rw [← hidx] at hscan
  have hle : scanLoop courses newCourse courses.length 0 ≤ courses.length := by
    rw [hidx]
    exact (List.takeWhile_sublist _).length_le
  have hstart : sizeToInt ((courses ++ [default]).length - 1) = (courses.length : Int) := by
    rw [List.length_append, List.length_singleton, Nat.add_sub_cancel]
    exact sizeToInt_small _ hsize'
  obtain ⟨shifted, hshift, hshifted⟩ :=
    shiftLoopChecked_eq (scanLoop courses newCourse courses.length 0) (by omega)
      courses.length fuel (courses ++ [default]) [] (by simp) hsize' hfuel
  have hlen : (shiftLoop (scanLoop courses newCourse courses.length 0) courses.length
      (courses ++ [default])).length = courses.length + 1 := by
    have h := congrArg List.length (shiftLoop_set _ courses newCourse courses.length default
      hle (Nat.le_refl _))
    simp only [List.take_length, List.drop_length, List.length_set, List.length_append,
      List.length_cons, List.length_take, List.length_drop] at h
    omega
  refine ⟨⟨(shiftLoop (scanLoop courses newCourse courses.length 0) courses.length
      (courses ++ [default])).set (scanLoop courses newCourse courses.length 0) newCourse,
      scanned, shifted⟩, ?_, ?_, ?_, ?_⟩
  · unfold InsertCourseInSortedOrderChecked
    simp only [hscan, hstart, hshift]
    rw [if_pos (by omega)]
  · unfold InsertCourseInSortedOrder
    simp
  · intro index hi
    rcases hscanned index hi with h | h
    · cases h
    · exact h
  · intro i hi
    rcases hshifted i hi with h | h
    · cases h
    · simp only [List.length_append, List.length_singleton]
      omega

theorem InsertCourseInSortedOrderChecked_in_bounds_witness :
    [courseIntro, courseAlgo].length < 2 ^ 31 ∧
      InsertCourseInSortedOrderChecked 3 [courseIntro, courseAlgo] courseData
        = some ⟨[courseIntro, courseData, courseAlgo], [0, 1], [2]⟩ ∧
      ∃ run, InsertCourseInSortedOrderChecked 3 [courseIntro, courseAlgo] courseData
          = some run ∧
        run.courses = InsertCourseInSortedOrder [courseIntro, courseAlgo] courseData ∧
        (∀ index ∈ run.scanIndices, index ≤ [courseIntro, courseAlgo].length) ∧
        (∀ i ∈ run.shiftCounters,
          1 ≤ i ∧ i ≤ (([courseIntro, courseAlgo] ++ [default]).length : Int) - 1) :=
  ⟨by decide, by decide,
    InsertCourseInSortedOrderChecked_in_bounds [courseIntro, courseAlgo] courseData 3
      (by decide) (by decide)⟩

/-! ## The message of a failed load -/

theorem what_append (pre rest : Str) (hpre : ∀ b ∈ pre, b.val ≠ 0) :
    what (pre ++ rest) = pre ++ what rest := by
  induction pre with
  | nil => rfl
  | cons a l ih =>
    have ha : (a.val != 0) = true := by simpa using hpre a (by simp)
    have hl : what (l ++ rest) = l ++ what rest := ih (fun b hb => hpre b (by simp [hb]))
    unfold what at hl ⊢
    rw [List.cons_append, List.takeWhile_cons, ha]
    simp only [if_true, List.cons_append]
    rw [hl]

theorem what_of_no_nul (message : Str) (h : (0 : Byte) ∉ message) : what message = message := by
  unfold what
  rw [List.takeWhile_eq_self_iff]
  intro b hb
  have hne : b ≠ 0 := fun h0 => h (h0 ▸ hb)
  have hv : b.val ≠ 0 := fun h0 => hne (Fin.ext h0)
  simpa using hv

theorem parseLine_error_what (line e : Str) (h : parseLine line = .error e) :
    ∃ pre, what e = pre ++ what line := by
  obtain ⟨pre, hpre, he⟩ := parseLine_error_prefix line e h
  refine ⟨pre, ?_⟩
  rw [he]
  have hall : pre.all (fun b => b.val != 0) = true := by
    simp only [List.mem_cons, List.mem_singleton, List.not_mem_nil, or_false] at hpre
    rcases hpre with rfl | rfl | rfl | rfl <;> rfl
  apply what_append
  intro b hb
  simpa using List.all_eq_true.mp hall b hb

/-- C8 as stated fails: the only line of `fileWithNul` is malformed and holds
a 0 byte; the load fails, and the message `what()` gives ends at that byte, so
it does not contain the text of the line. -/
theorem LoadCoursesFromFile_message_contains_line_fails :
    ¬ ∀ (courses : List Course) (contents : Str) (before : List Str) (bad : Str)
        (after : List Str), getlineAll newline contents = before ++ bad :: after →
        (∀ line ∈ before, (parseLine line).toBool = true) →
        (parseLine bad).toBool = false →
        ∃ catalog message,
          LoadCoursesFromFile (some contents) courses = (catalog, some message) ∧
          bad <:+: what message ∧
          ∀ contents', getlineAll newline contents' = before →
            LoadCoursesFromFile (some contents') courses = (catalog, none) := by
  intro h
  obtain ⟨catalog, message, hload, hinfix, _⟩ :=
    h [] fileWithNul [] lineWithNul [] (by decide) (by decide) (by decide)
  have hmodel : LoadCoursesFromFile (some fileWithNul) []
      = ([], some (errInvalidCourseNumber ++ lineWithNul)) := by decide
  rw [hmodel] at hload
  have hmsg : message = errInvalidCourseNumber ++ lineWithNul := by
    have h2 := congrArg Prod.snd hload
    simp only [Option.some.injEq] at h2
    exact h2.symm
  rw [hmsg] at hinfix
  revert hinfix
  decide

/-- C8, amended. When the lines before line k of a file are well-formed and
line k is not, the call throws an exception whose `what()` message ends with
line k up to its first 0 byte, hence contains all of line k when the line
holds no 0 byte; and the vector it leaves is the one a successful load of the
lines before k alone gives: no line from k on is inserted and nothing is
rolled back. -/
theorem LoadCoursesFromFile_stops_at_bad_line (courses : List Course) (contents : Str)
    (before : List Str) (bad : Str) (after : List Str)
    (hlines : getlineAll newline contents = before ++ bad :: after)
    (hbefore : ∀ line ∈ before, (parseLine line).toBool = true)
    (hbad : (parseLine bad).toBool = false) :
    ∃ catalog message, LoadCoursesFromFile (some contents) courses = (catalog, some message) ∧
      (∃ pre, what message = pre ++ what bad) ∧
      ((0 : Byte) ∉ bad → (∃ pre, what message = pre ++ bad) ∧ bad <:+: what message) ∧
      catalog = (parsedCourses before).foldl InsertCourseInSortedOrder courses ∧
      ∀ contents', getlineAll newline contents' = before →
        LoadCoursesFromFile (some contents') courses = (catalog, none) := by
  cases hp : parseLine bad with
  | ok c => rw [hp] at hbad; cases hbad
  | error e =>
    obtain ⟨pre, hpre⟩ := parseLine_error_what bad e hp
    refine ⟨_, e, ?_, ⟨pre, hpre⟩, ?_, rfl, ?_⟩
    · show loadLoop (getlineAll newline contents) courses = _
      rw [hlines]
      exact loadLoop_first_error before bad e after hp courses hbefore
    · intro hnul
      rw [what_of_no_nul bad hnul] at hpre
      exact ⟨⟨pre, hpre⟩, ⟨pre, [], by rw [hpre, List.append_nil]⟩⟩
    · intro contents' hc
      show loadLoop (getlineAll newline contents') courses = _
      rw [hc]
      exact loadLoop_all_ok before courses hbefore

theorem LoadCoursesFromFile_stops_at_bad_line_witness :
    LoadCoursesFromFile (some fileBadSecondLine) [courseIntro]
        = ([courseIntro, courseData],
            some (errInvalidCourseNumber ++ ascii "CSC101,Intro to Programming")) ∧
      what (errInvalidCourseNumber ++ lineWithNul) = ascii "ERROR: Invalid course number: CSC" ∧
      ∃ catalog message,
        LoadCoursesFromFile (some fileBadSecondLine) [courseIntro] = (catalog, some message) ∧
        (∃ pre, what message = pre ++ what (ascii "CSC101,Intro to Programming")) ∧
        ((0 : Byte) ∉ ascii "CSC101,Intro to Programming" →
          (∃ pre, what message = pre ++ ascii "CSC101,Intro to Programming") ∧
          ascii "CSC101,Intro to Programming" <:+: what message) ∧
        catalog = (parsedCourses [ascii "CSCI201,Data Structures,CSCI101"]).foldl
          InsertCourseInSortedOrder [courseIntro] ∧
        ∀ contents', getlineAll newline contents' = [ascii "CSCI201,Data Structures,CSCI101"] →
          LoadCoursesFromFile (some contents') [courseIntro] = (catalog, none) :=
  ⟨by decide, by decide,
    LoadCoursesFromFile_stops_at_bad_line [courseIntro] fileBadSecondLine
      [ascii "CSCI201,Data Structures,CSCI101"] (ascii "CSC101,Intro to Programming")
      [ascii "CSCI301,Algorithms"] (by decide) (by decide) (by decide)⟩

end ProjectTwo
